/-
Verification of the orchestrator repository's core subsystems, shallowly
embedded in Lean 4:

* the JSON canonicalizer `canonicalJson` (src/cli/ingestValet.ts),
* the HALO receipt signer/verifier `signResponse` / `verifyReceipt`,
* the checkpoint protocol `createMasterReceipt` / `verifyCheckpointOffline` /
  `assertMasterHasNoPlaintext` / `flipHexChar` (src/cli/ingestValet.ts),
* the ELI tagger `tagResponse` (src/eli/tagger.ts), and
* the ELI semantic validator `validateLedger` (src/eli/validator.ts).

Modelling conventions, used consistently below:

* JavaScript strings are modelled as Lean `String` / `List Char` (one element
  per Unicode code point).  Span offsets therefore count code points; the
  source never commits to a unit (spec §9 "Open question"), so this is the
  internally-consistent choice.
* JavaScript numbers inside JSON values are carried as their rendered
  `JSON.stringify` literal (`Json.num lit`), since the canonicalizer treats
  numbers atomically via `JSON.stringify`.
* Effectful inputs of the source (`randomUUID()`, `new Date()`, environment
  keys) are passed in as explicit parameters.
* The cryptographic primitives from `node:crypto` are external to the
  repository.  They are modelled symbolically but executably: SHA-256 and
  HMAC-SHA256 are injective encodings into lowercase hex strings (the ideal
  collision-free hash), and Ed25519 sign/verify is a symbolic
  correct-and-unforgeable signature scheme.  The envelope logic around them
  is translated literally from the source.
-/
import Mathlib

set_option maxRecDepth 8000

namespace OrchSpec

/-! ### JSON values -/

/-- JSON-like runtime values (`null`, strings, numbers, booleans, arrays,
objects).  Objects are insertion-ordered association lists, mirroring a
JavaScript object's string-keyed own properties; JSON-decoded objects have
pairwise-distinct keys, captured below by `wfJson`.  A number is carried as
its rendered `JSON.stringify` literal. -/
inductive Json where
  | null : Json
  | bool (b : Bool) : Json
  | num (lit : String) : Json
  | str (s : String) : Json
  | arr (items : List Json) : Json
  | obj (fields : List (String × Json)) : Json

/-- Hex digit characters, lowercase, as used by `Buffer.digest("hex")` and by
`JSON.stringify`'s `\uXXXX` escapes. -/
def hexChar (n : Nat) : Char :=
  if n < 10 then Char.ofNat (48 + n) else Char.ofNat (87 + n)

/-- Four-digit hex rendering used by `JSON.stringify` for control characters. -/
def hex4 (n : Nat) : List Char :=
  [hexChar (n / 4096 % 16), hexChar (n / 256 % 16), hexChar (n / 16 % 16), hexChar (n % 16)]

/-- Escape of a single character inside a JSON string literal, following
`JSON.stringify`: `"` and `\` get a backslash escape, the five named control
escapes are used where available, all other control characters use `\uXXXX`,
and every other character is emitted verbatim. -/
def escapeChar (c : Char) : List Char :=
  if c = '\"' then ['\\', '\"']
  else if c = '\\' then ['\\', '\\']
  else if c = '\x08' then ['\\', 'b']
  else if c = '\x09' then ['\\', 't']
  else if c = '\x0a' then ['\\', 'n']
  else if c = '\x0c' then ['\\', 'f']
  else if c = '\x0d' then ['\\', 'r']
  else if c.toNat < 32 then '\\' :: 'u' :: hex4 c.toNat
  else [c]

/-- Body (without the surrounding quotes) of `JSON.stringify` applied to a
string. -/
def escBody (s : String) : List Char :=
  (s.data.map escapeChar).flatten

/-- Model of `JSON.stringify` applied to a string value. -/
def jsonEscape (s : String) : String :=
  ⟨'\"' :: escBody s ++ ['\"']⟩

/-- Stable insertion of an element into a sorted list: the element is placed
before the first entry it compares `le` to, so earlier elements stay before
equal later ones. -/
def sortedInsert {α : Type} (le : α → α → Bool) (a : α) : List α → List α
  | [] => [a]
  | b :: bs => if le a b then a :: b :: bs else b :: sortedInsert le a bs

/-- Stable comparison sort (insertion sort), modelling JavaScript's stable
`Array.prototype.sort`.  Any two stable sorts agree, and on lists with
pairwise-distinct keys any sorted permutation is unique, so the choice of
algorithm is immaterial to the properties proved below. -/
def stableSort {α : Type} (le : α → α → Bool) : List α → List α
  | [] => []
  | x :: xs => sortedInsert le x (stableSort le xs)

/-- Lexicographic comparison of character sequences by code point, modelling
the default string comparison of `Array.prototype.sort`.  (JavaScript
compares UTF-16 code units while this compares code points; the two agree on
all strings without supplementary-plane characters, and the canonicalizer's
order-insensitivity holds under any fixed total order.) -/
def strLeB : List Char → List Char → Bool
  | [], _ => true
  | _ :: _, [] => false
  | a :: as, b :: bs =>
      if a = b then strLeB as bs else decide (a.toNat < b.toNat)

/-- Key order used by `Object.keys(record).sort()` on rendered fields. -/
def fieldLe (a b : String × String) : Bool := strLeB a.1.data b.1.data

/-- Same key order on unrendered fields, used by the recursive key-sorting
normal form `sortJson`. -/
def keyLe (a b : String × Json) : Bool := strLeB a.1.data b.1.data

mutual

/-- Model of `canonicalJson` (src/cli/ingestValet.ts, identical to
`canonicalize` in the artifact verifier): deterministic JSON serialization
with object keys sorted lexicographically and array order preserved.  The
source sorts `Object.keys(record)` and then serializes each looked-up value;
here each field is rendered first and the rendered `(key, text)` pairs are
sorted by key, which coincides with the source on objects with distinct keys
(every object reachable from JSON decoding). -/
def canonicalJson : Json → String
  | .null => "null"
  | .bool b => if b then "true" else "false"
  | .num lit => lit
  | .str s => jsonEscape s
  | .arr items => "[" ++ String.intercalate "," (canonList items) ++ "]"
  | .obj fields =>
      "\x7b" ++ String.intercalate ","
        ((stableSort fieldLe (canonFields fields)).map
          (fun q => jsonEscape q.1 ++ ":" ++ q.2)) ++ "\x7d"

def canonList : List Json → List String
  | [] => []
  | x :: xs => canonicalJson x :: canonList xs

def canonFields : List (String × Json) → List (String × String)
  | [] => []
  | (k, v) :: fs => (k, canonicalJson v) :: canonFields fs

end

mutual

/-- Recursive key-sorting normal form of a JSON value: object fields are
sorted by key at every level, arrays keep their order.  Two JSON-like values
are "structurally equal up to object key insertion order" exactly when their
normal forms are equal. -/
def sortJson : Json → Json
  | .null => .null
  | .bool b => .bool b
  | .num lit => .num lit
  | .str s => .str s
  | .arr items => .arr (sortList items)
  | .obj fields => .obj (stableSort keyLe (sortFields fields))

def sortList : List Json → List Json
  | [] => []
  | x :: xs => sortJson x :: sortList xs

def sortFields : List (String × Json) → List (String × Json)
  | [] => []
  | (k, v) :: fs => (k, sortJson v) :: sortFields fs

end

/-- Pairwise distinctness of a key list, decidably. -/
def nodupKeys : List String → Bool
  | [] => true
  | k :: ks => (!(decide (k ∈ ks))) && nodupKeys ks

mutual

/-- Well-formedness of a JSON value: every object in the tree has pairwise
distinct keys.  Holds for every value produced by `JSON.parse`, since a
JavaScript object cannot carry duplicate own keys. -/
def wfJson : Json → Bool
  | .null | .bool _ | .num _ | .str _ => true
  | .arr items => wfList items
  | .obj fields => nodupKeys (fields.map Prod.fst) && wfFields fields

def wfList : List Json → Bool
  | [] => true
  | x :: xs => wfJson x && wfList xs

def wfFields : List (String × Json) → Bool
  | [] => true
  | (_, v) :: fs => wfJson v && wfFields fs

end

/-! ### Cryptographic primitives (modelled)

`node:crypto` is external to the repository.  The hash and MAC are modelled
as injective encodings into lowercase-hex strings: this is the ideal-hash
(collision-free) reading under which the spec's tamper-sensitivity claims are
statable at all.  All envelope logic around them is translated literally. -/

/-- Six-lowercase-hex-digit encoding of a natural number below `16^6`.  Every
Unicode code point (`< 0x110000 < 16^6`) fits. -/
def hexFixed6 (n : Nat) : List Char :=
  [hexChar (n / 1048576 % 16), hexChar (n / 65536 % 16), hexChar (n / 4096 % 16),
   hexChar (n / 256 % 16), hexChar (n / 16 % 16), hexChar (n % 16)]

/-- Injective encoding of a string into lowercase hex, six digits per
character. -/
def hexOfString (s : String) : List Char :=
  (s.data.map (fun c => hexFixed6 c.toNat)).flatten

/-- Model of `createHash("sha256").update(input, "utf8").digest("hex")`:
an injective, executable stand-in producing a lowercase-hex digest string
(the ideal collision-free hash; the real compression function is external to
the repository). -/
def sha256Hex (input : String) : String :=
  ⟨hexOfString input⟩

/-- Model of `createHmac("sha256", key).update(payload, "utf8").digest("hex")`:
injective in the payload for each fixed key, producing lowercase hex (the
ideal unforgeable MAC; the real primitive is external to the repository). -/
def hmacSha256Hex (key payload : String) : String :=
  ⟨hexOfString key ++ hexOfString payload⟩

/-- Numeric value of a hex digit character, case-insensitive, as accepted by
`Buffer.from(s, "hex")`. -/
def hexVal (c : Char) : Option Nat :=
  if '0' ≤ c ∧ c ≤ '9' then some (c.toNat - 48)
  else if 'a' ≤ c ∧ c ≤ 'f' then some (c.toNat - 87)
  else if 'A' ≤ c ∧ c ≤ 'F' then some (c.toNat - 55)
  else none

/-- Model of `Buffer.from(s, "hex")`: decodes hex digit pairs
case-insensitively into bytes, stopping at the first invalid character or at
a trailing unpaired digit (Node's documented truncation behaviour). -/
def hexDecode : List Char → List Nat
  | c1 :: c2 :: rest =>
      match hexVal c1, hexVal c2 with
      | some hi, some lo => (16 * hi + lo) :: hexDecode rest
      | _, _ => []
  | _ => []

/-- Model of `derivePublicKeyPemFromPrivate`: Ed25519 public-key derivation is
external (`createPublicKey(createPrivateKey(pem))`); modelled as an injective
tag on the private key (the try/catch failure path for malformed PEM is not
modelled — keys are treated as well-formed). -/
def derivePublicKeyPemFromPrivate (privateKeyPem : String) : String :=
  "ed25519-public:" ++ privateKeyPem

/-- Symbolic Ed25519 detached signature relative to a public key.  Used only
through `ed25519Sign`/`ed25519Verify` below. -/
def ed25519SigFor (publicKeyPem payload : String) : String :=
  "ed25519-sig:" ++ hmacSha256Hex publicKeyPem payload

/-- Model of `sign(null, payload, privateKey)` from `node:crypto` (detached
Ed25519 signing, base64-rendered by the caller): symbolic
correct-and-unforgeable signing. -/
def ed25519Sign (privateKeyPem payload : String) : String :=
  ed25519SigFor (derivePublicKeyPemFromPrivate privateKeyPem) payload

/-- Model of `verify(null, payload, publicKey, signature)` from `node:crypto`:
accepts exactly the signature produced for this payload under the matching
private key. -/
def ed25519Verify (publicKeyPem payload signature : String) : Bool :=
  signature == ed25519SigFor publicKeyPem payload

/-! ### HALO receipt signer / verifier (simple form) -/

/-- Model of the `HaloReceipt` envelope (signer module). -/
structure HaloReceipt where
  id : String
  timestamp : String
  responseHash : String
  signature : String
  response : String
  schema_version : String

/-- Result type of `verifyReceipt`. -/
structure VerifyResult where
  valid : Bool
  reason : Option String := none

/-- Model of `signResponse`: hashes the raw response, builds the payload
`id|timestamp|responseHash`, and signs it with HMAC-SHA256.  The generated
`randomUUID()` and `new Date().toISOString()` are explicit parameters, and
the signing key (with its environment fallback already resolved) is passed
directly. -/
def signResponse (response key id timestamp : String) : HaloReceipt :=
  let responseHash := sha256Hex response
  let payload := id ++ "|" ++ timestamp ++ "|" ++ responseHash
  let signature := hmacSha256Hex key payload
  { id := id, timestamp := timestamp, responseHash := responseHash,
    signature := signature, response := response, schema_version := "1.0.0" }

/-- Model of `verifyReceipt`: re-derives the response hash (failing fast with
a hash-mismatch reason), then re-derives the HMAC and compares the
hex-decoded signature bytes, with a distinct length-mismatch reason before
the constant-time content comparison. -/
def verifyReceipt (receipt : HaloReceipt) (key : String) : VerifyResult :=
  let expectedHash := sha256Hex receipt.response
  if expectedHash ≠ receipt.responseHash then
    { valid := false, reason := some "response hash mismatch – content may have been tampered" }
  else
    let payload := receipt.id ++ "|" ++ receipt.timestamp ++ "|" ++ receipt.responseHash
    let expectedSig := hmacSha256Hex key payload
    let sigBuffer := hexDecode receipt.signature.data
    let expectedBuffer := hexDecode expectedSig.data
    if sigBuffer.length ≠ expectedBuffer.length then
      { valid := false, reason := some "signature length mismatch" }
    else if sigBuffer ≠ expectedBuffer then
      { valid := false, reason := some "signature mismatch – receipt may have been forged" }
    else
      { valid := true }

/-! ### Substring search -/

/-- Decidable "the second list occurs at the head of the first". -/
def startsWithSeq : List Char → List Char → Bool
  | _, [] => true
  | [], _ :: _ => false
  | a :: as, b :: bs => a == b && startsWithSeq as bs

/-- Decidable "the second list occurs somewhere inside the first"
(used to model JavaScript `String.includes` / reason-string containment). -/
def containsSeq : List Char → List Char → Bool
  | l, p => startsWithSeq l p || match l with
      | [] => false
      | _ :: t => containsSeq t p

/-- Containment of one string in another, via `containsSeq`. -/
def containsStr (s pat : String) : Bool :=
  containsSeq s.data pat.data

/-! ### ELI tagger (src/eli/tagger.ts) -/

/-- JavaScript's `\s` character class (and the characters removed by
`String.prototype.trim`). -/
def isJsWhitespace (c : Char) : Bool :=
  c = ' ' || c = '\x09' || c = '\x0a' || c = '\x0b' || c = '\x0c' || c = '\x0d' ||
  c = '\u00a0' || c = '\u1680' || ('\u2000' ≤ c && c ≤ '\u200a') ||
  c = '\u2028' || c = '\u2029' || c = '\u202f' || c = '\u205f' ||
  c = '\u3000' || c = '\ufeff'

/-- JavaScript's `\w` character class (`[A-Za-z0-9_]`), used for `\b`. -/
def isWordChar (c : Char) : Bool :=
  ('a' ≤ c && c ≤ 'z') || ('A' ≤ c && c ≤ 'Z') || ('0' ≤ c && c ≤ '9') || c = '_'

/-- Sentence terminators recognized by the tagger's split pattern. -/
def isSentTerm (c : Char) : Bool :=
  c = '.' || c = '!' || c = '?'

mutual

/-- Model of `response.split(/(?<=[.!?])\s+/)`: a separator is a maximal
whitespace run whose first character immediately follows a sentence
terminator.  `acc` holds the current piece reversed; its head is the
previously scanned character, i.e. the lookbehind position. -/
def splitPieces : List Char → List Char → List (List Char)
  | [], acc => [acc.reverse]
  | c :: rest, acc =>
      if isJsWhitespace c && (match acc with | t :: _ => isSentTerm t | [] => false) then
        acc.reverse :: splitSkipWs rest
      else
        splitPieces rest (c :: acc)

def splitSkipWs : List Char → List (List Char)
  | [] => [[]]
  | c :: rest => if isJsWhitespace c then splitSkipWs rest else splitPieces rest [c]

end

/-- Model of `String.prototype.trim` on a character list. -/
def trimList (s : List Char) : List Char :=
  ((s.dropWhile isJsWhitespace).reverse.dropWhile isJsWhitespace).reverse

/-- Linear scan underlying `String.prototype.indexOf`: the smallest absolute
index `≥ i` (where `l` is the haystack's suffix starting at `i`) at which the
needle occurs. -/
def idxSearch : List Char → List Char → Nat → Option Nat
  | l, p, i =>
      if startsWithSeq l p then some i
      else match l with
        | [] => none
        | _ :: t => idxSearch t p (i + 1)

/-- Model of `haystack.indexOf(needle, position)`: the position is clamped
into `[0, length]`, the first occurrence at or after it is returned, and `-1`
signals absence. -/
def indexOfFrom (haystack needle : List Char) (position : Int) : Int :=
  let start := min position.toNat haystack.length
  match idxSearch (haystack.drop start) needle start with
  | some i => (i : Int)
  | none => -1

/-- Word-boundary test before position `i` (all pattern alternatives below
start with a word character). -/
def boundaryBefore (t : List Char) (i : Nat) : Bool :=
  i == 0 || !(isWordChar (t.getD (i - 1) ' '))

/-- Word-boundary test after position `j` (all pattern alternatives below end
with a word character). -/
def boundaryAfter (t : List Char) (j : Nat) : Bool :=
  !(isWordChar (t.getD j ' '))

/-- Match of one alternative at position `i`: leading `\b`, the literal, and
(when the alternative carries its own trailing `\b`) a trailing boundary. -/
def matchAltAt (t : List Char) (i : Nat) (alt : List Char) (trailingB : Bool) : Bool :=
  boundaryBefore t i && startsWithSeq (t.drop i) alt &&
    (!trailingB || boundaryAfter t (i + alt.length))

/-- Existential regex-test over all positions for an alternation of word-like
literals. -/
def somePatMatch (t : List Char) (alts : List (String × Bool)) : Bool :=
  (List.range (t.length + 1)).any (fun i => alts.any (fun a => matchAltAt t i a.1.data a.2))

/-- Alternatives of `INFERENCE_PATTERNS[0]`:
`/\b(therefore|thus|hence|it follows|consequently|suggests? that|implies? that|so\b)/i`
(only `so` carries its own trailing `\b`; `suggests?`/`implies?` expand to
both spellings). -/
def inference0Alts : List (String × Bool) :=
  [("therefore", false), ("thus", false), ("hence", false), ("it follows", false),
   ("consequently", false), ("suggest that", false), ("suggests that", false),
   ("implie that", false), ("implies that", false), ("so", true)]

/-- Alternatives of `INFERENCE_PATTERNS[1]`:
`/\b(likely|probably|presumably|appears? to|seems? to|may|might|could)\b/i`. -/
def inference1Alts : List (String × Bool) :=
  [("likely", true), ("probably", true), ("presumably", true), ("appear to", true),
   ("appears to", true), ("seem to", true), ("seems to", true), ("may", true),
   ("might", true), ("could", true)]

/-- Alternatives of `OPINION_PATTERNS[0]`:
`/\b(I think|I believe|in my (view|opinion)|arguably|it (seems|appears) that)\b/i`. -/
def opinionAlts : List (String × Bool) :=
  [("i think", true), ("i believe", true), ("in my view", true), ("in my opinion", true),
   ("arguably", true), ("it seems that", true), ("it appears that", true)]

/-- Verb alternatives of `FACT_MARKERS[0]` (case-sensitive). -/
def factVerbs : List String :=
  ["is", "are", "was", "were", "has", "have", "had"]

/-- Characters not matched by an unflagged regex `.`. -/
def isLineTerm (c : Char) : Bool :=
  c = '\x0a' || c = '\x0d' || c = '\u2028' || c = '\u2029'

/-- Model of `FACT_MARKERS[0] = /\b(is|are|was|were|has|have|had)\b.*\./`
(case-sensitive, `.` does not cross line terminators). -/
def factVerbMatch (t : List Char) : Bool :=
  (List.range (t.length + 1)).any (fun i => factVerbs.any (fun w =>
    matchAltAt t i w.data true &&
      ((t.drop (i + w.length)).takeWhile (fun c => !isLineTerm c)).any (fun c => c == '.')))

/-- Model of `FACT_MARKERS[1] = /\b\d{4}\b/`. -/
def isDigitCh (c : Char) : Bool :=
  '0' ≤ c && c ≤ '9'

/-- Existence of a four-digit run with word boundaries on both sides. -/
def yearMatch (t : List Char) : Bool :=
  (List.range (t.length + 1)).any (fun i =>
    boundaryBefore t i && ((t.drop i).take 4).length == 4 &&
      ((t.drop i).take 4).all isDigitCh && boundaryAfter t (i + 4))

/-- ASCII lowering of a string's characters, modelling `toLowerCase` for the
`/i` regex flag (the source patterns are ASCII-only). -/
def lowerChars (s : List Char) : List Char :=
  s.map Char.toLower

/-- Model of `classifySentence`: ordered pattern precedence
OPINION → INFERENCE → FACT → ASSERTION. -/
def classifySentence (sentence : List Char) : String :=
  let lower := lowerChars sentence
  if somePatMatch lower opinionAlts then "OPINION"
  else if somePatMatch lower inference0Alts || somePatMatch lower inference1Alts then "INFERENCE"
  else if factVerbMatch sentence || yearMatch sentence then "FACT"
  else "ASSERTION"

/-- Model of an `EliClaim`.  Spans are integer pairs because the source's
`indexOf` can in principle produce `-1`. -/
structure EliClaim where
  id : String
  type : String
  text : String
  span_refs : List (Int × Int)

/-- Model of an `EliLedger`. -/
structure EliLedger where
  tagged_at : String
  sentence_count : Nat
  claims : List EliClaim

/-- Claim-construction loop of `tagResponse`: locate each sentence with
`indexOf` from the monotonic cursor, record its span, and advance the cursor
to the span's end. -/
def tagClaims (response : List Char) (ids : Nat → String) :
    List (List Char) → Int → Nat → List EliClaim
  | [], _, _ => []
  | s :: rest, cursor, n =>
      let start := indexOfFrom response s cursor
      let stop := start + (s.length : Int)
      { id := ids n, type := classifySentence s, text := ⟨s⟩, span_refs := [(start, stop)] }
        :: tagClaims response ids rest stop (n + 1)

/-- Model of `tagResponse`: split into sentence pieces, trim, drop empties,
then tag each sentence.  `ids` supplies the per-claim `crypto.randomUUID()`
values and `taggedAt` the `new Date().toISOString()` timestamp. -/
def tagResponse (ids : Nat → String) (taggedAt : String) (response : List Char) : EliLedger :=
  let sentences := ((splitPieces response []).map trimList).filter (fun s => decide (0 < s.length))
  { tagged_at := taggedAt,
    sentence_count := sentences.length,
    claims := tagClaims response ids sentences 0 0 }

/-! ### ELI semantic validator (src/eli/validator.ts) -/

/-- Model of a `ValidationViolation`. -/
structure ValidationViolation where
  claimId : String
  rule : String
  detail : String

/-- Model of a `ValidationResult`. -/
structure ValidationResult where
  passed : Bool
  violations : List ValidationViolation

/-- Model of `String.prototype.slice(start, end)` with JavaScript's negative
index and clamping semantics. -/
def jsSlice (s : List Char) (a b : Int) : List Char :=
  let len : Int := s.length
  let f := if a < 0 then max (len + a) 0 else min a len
  let t := if b < 0 then max (len + b) 0 else min b len
  if f < t then (s.drop f.toNat).take (t - f).toNat else []

/-- Alternatives of the validator's `HEDGE_PATTERN`:
`/\b(therefore|thus|hence|consequently|suggests?|implies?|likely|probably|may|might|could|appears?|seems?)\b/i`. -/
def hedgeAlts : List (String × Bool) :=
  [("therefore", true), ("thus", true), ("hence", true), ("consequently", true),
   ("suggest", true), ("suggests", true), ("implie", true), ("implies", true),
   ("likely", true), ("probably", true), ("may", true), ("might", true),
   ("could", true), ("appear", true), ("appears", true), ("seem", true), ("seems", true)]

/-- Hedge-language test on a span's text. -/
def hedgeMatch (spanText : List Char) : Bool :=
  somePatMatch (lowerChars spanText) hedgeAlts

/-- Closed enumeration of epistemic types, as checked by the validator. -/
def validTypes : List String :=
  ["FACT", "INFERENCE", "ASSERTION", "OPINION"]

/-- Violations contributed by one claim, in the source's rule order.
(`typeof start/end !== "number"` cannot arise in the typed embedding; all
other conditions are literal translations.) -/
def claimViolations (sourceText : List Char) (claim : EliClaim) : List ValidationViolation :=
  (if claim.id.data.all isJsWhitespace then
    [{ claimId := claim.id, rule := "MISSING_ID", detail := "Claim is missing an id" }]
   else []) ++
  (if !(validTypes.contains claim.type) then
    [{ claimId := claim.id, rule := "INVALID_TYPE", detail := "Unknown type: " ++ claim.type }]
   else []) ++
  (if claim.span_refs.isEmpty then
    [{ claimId := claim.id, rule := "NO_SPAN_REF", detail := "Claim has no span_refs" }]
   else
    claim.span_refs.flatMap (fun sp =>
      if sp.1 < 0 || (sourceText.length : Int) < sp.2 || sp.2 ≤ sp.1 then
        [{ claimId := claim.id, rule := "INVALID_SPAN",
           detail := "Span [" ++ toString sp.1 ++ ", " ++ toString sp.2 ++
             "] is out of bounds for source text of length " ++ toString sourceText.length }]
      else [])) ++
  (match claim.span_refs.head? with
   | some sp =>
      if claim.type == "FACT" then
        let evidence := trimList (jsSlice sourceText sp.1 sp.2)
        if evidence.length < 10 then
          [{ claimId := claim.id, rule := "FACT_WITHOUT_EVIDENCE",
             detail := "FACT claim span resolves to trivially short text: \"" ++ (⟨evidence⟩ : String) ++ "\"" }]
        else []
      else []
   | none => []) ++
  (match claim.span_refs.head? with
   | some sp =>
      if claim.type == "INFERENCE" && !(hedgeMatch (jsSlice sourceText sp.1 sp.2)) then
        [{ claimId := claim.id, rule := "INFERENCE_LAUNDERING",
           detail := "INFERENCE claim span contains no hedging language – possible inference laundering" }]
      else []
   | none => [])

/-- Model of `validateLedger`: accumulate all violations in claim order;
`passed` iff none.  The function is total (the source never throws). -/
def validateLedger (ledger : EliLedger) (sourceText : List Char) : ValidationResult :=
  let violations := ledger.claims.flatMap (claimViolations sourceText)
  { passed := violations.isEmpty, violations := violations }

/-! ### Checkpoint protocol (src/cli/ingestValet.ts) -/

/-- Domain-separation string prepended to every signing envelope. -/
def DOMAIN_PREFIX : String := "HALO_MASTER_RECEIPT_V1|"

/-- The three upstream HMAC canonicalization strategies. -/
inductive HmacStrategy where
  | canonical_transcript
  | canonical_receipt_without_signatures
  | transcript_hash_field

/-- String rendering of an `HmacStrategy` (its TypeScript union literal). -/
def hmacStrategyString : HmacStrategy → String
  | .canonical_transcript => "canonical_transcript"
  | .canonical_receipt_without_signatures => "canonical_receipt_without_signatures"
  | .transcript_hash_field => "transcript_hash_field"

/-- Model of a `ValetSourceFile` entry. -/
structure ValetSourceFile where
  file : String
  sha256 : String

/-- Metadata object built by `createMasterReceipt`.  `public_key` is absent
in every created receipt but may be present on externally supplied ones
(`verifyCheckpointOffline` reads `metadata?.public_key`). -/
structure MasterMetadata where
  source : String
  ingested_at : String
  source_dir : String
  source_receipt_file : String
  public_key : Option String

/-- Verification block of a `MasterReceipt`. -/
structure MasterVerification where
  derived_status : String
  verified_at : String
  valet_hmac_strategy : String
  checks : List String

/-- Model of a `MasterReceipt`. -/
structure MasterReceipt where
  receipt_version : String
  receipt_id : String
  content_hash : String
  signature_scheme : String
  signature : String
  metadata : MasterMetadata
  verification : MasterVerification

/-- Model of an `eli_assertions` entry of the evidence pack (the
`confidence: undefined` field is dropped by JSON serialization and carries no
information). -/
structure EliAssertion where
  assertion_type : String
  text : String
  sources : List String

/-- Model of the `valet_source` block of the evidence pack. -/
structure ValetSource where
  source_dir : String
  files : List ValetSourceFile
  source_receipt_file : String

/-- Model of an `EvidencePack`. -/
structure EvidencePack where
  receipt_id : String
  content_hash : String
  valet_source : ValetSource
  transcript : Json
  eli_assertions : List EliAssertion
  notes : String

/-- JavaScript property read `record[key]` on a JSON object (objects decoded
from JSON have distinct keys, so the first match is the match). -/
def jget (j : Json) (key : String) : Option Json :=
  match j with
  | .obj fields => (fields.find? (fun p => p.1 == key)).map (fun p => p.2)
  | _ => none

/-- Model of `asString`: a string value of positive length, else `undefined`. -/
def asStringJ : Option Json → Option String
  | some (.str s) => if s.length == 0 then none else some s
  | _ => none

/-- Model of `asMessageArray`: keep record entries, extract
`role`/`speaker`/`author` (default `"assistant"`) and
`content`/`text`/`message` (default `""`), drop empty contents, and return
`undefined` for a non-array or when nothing remains. -/
def asMessageArray : Option Json → Option (List (String × String))
  | some (.arr items) =>
      let kept := (items.filterMap (fun e =>
        match e with
        | .obj fs =>
            let entry : Json := .obj fs
            let role := ((asStringJ (jget entry "role")).orElse (fun _ =>
              (asStringJ (jget entry "speaker")).orElse (fun _ =>
                asStringJ (jget entry "author")))).getD "assistant"
            let content := ((asStringJ (jget entry "content")).orElse (fun _ =>
              (asStringJ (jget entry "text")).orElse (fun _ =>
                asStringJ (jget entry "message")))).getD ""
            some (role, content)
        | _ => none)).filter (fun rc => rc.2.length != 0)
      if kept.length == 0 then none else some kept
  | _ => none

/-- ASCII lowering of a whole string (`String.prototype.toLowerCase` for the
ASCII role names used here). -/
def strToLower (s : String) : String :=
  ⟨s.data.map Char.toLower⟩

/-- ASCII uppercasing of a whole string (used to build a case-changed copy of
a hex signature). -/
def strUpper (s : String) : String :=
  ⟨s.data.map Char.toUpper⟩

/-- Model of `extractAssistantText`: the `"\n"`-join of the contents of the
transcript's assistant-role messages. -/
def extractAssistantText (transcript : Json) : String :=
  let messages := (asMessageArray (jget transcript "messages")).getD []
  String.intercalate "\n"
    ((messages.filter (fun m => strToLower m.1 == "assistant")).map (fun m => m.2))

/-- Inputs of `createMasterReceipt`.  The first six fields mirror the source's
input object; the remaining fields supply its effects (`randomUUID()`, the
two `new Date().toISOString()` calls, and the tagger's per-claim UUIDs and
timestamp). -/
structure CreateMasterInput where
  transcript : Json
  sourceDir : String
  sourceReceiptFile : String
  sourceFiles : List ValetSourceFile
  matchedHmacStrategy : HmacStrategy
  signingKeyPem : String
  receiptId : String
  ingestedAt : String
  verifiedAt : String
  claimIds : Nat → String
  taggedAt : String

/-- Return type of `createMasterReceipt`. -/
structure CheckpointPair where
  master_receipt : MasterReceipt
  evidence_pack : EvidencePack

/-- The signing envelope `{receipt_version, receipt_id, content_hash,
signature_scheme}` as a JSON value. -/
def envelopeJson (receiptVersion receiptId contentHash signatureScheme : String) : Json :=
  .obj [("receipt_version", .str receiptVersion), ("receipt_id", .str receiptId),
        ("content_hash", .str contentHash), ("signature_scheme", .str signatureScheme)]

/-- `JSON.stringify` of an integer span pair `[start, end]`. -/
def spanRefString (sp : Int × Int) : String :=
  "[" ++ toString sp.1 ++ "," ++ toString sp.2 ++ "]"

/-- Model of `createMasterReceipt`: canonicalize and hash the transcript,
sign the domain-separated envelope with Ed25519, tag the assistant text into
`eli_assertions`, and assemble the master receipt / evidence pack pair. -/
def createMasterReceipt (input : CreateMasterInput) : CheckpointPair :=
  let canonicalTranscript := canonicalJson input.transcript
  let contentHash := sha256Hex canonicalTranscript
  let envelopePayload :=
    DOMAIN_PREFIX ++ canonicalJson (envelopeJson "halo.master.v1" input.receiptId contentHash "ed25519")
  let signature := ed25519Sign input.signingKeyPem envelopePayload
  let assistantText := extractAssistantText input.transcript
  let ledgerClaims :=
    if assistantText.length == 0 then []
    else (tagResponse input.claimIds input.taggedAt assistantText.data).claims
  let evidence_pack : EvidencePack := {
    receipt_id := input.receiptId,
    content_hash := contentHash,
    valet_source := { source_dir := input.sourceDir, files := input.sourceFiles,
                      source_receipt_file := input.sourceReceiptFile },
    transcript := input.transcript,
    eli_assertions := ledgerClaims.map (fun claim =>
      { assertion_type := claim.type, text := claim.text,
        sources := claim.span_refs.map spanRefString }),
    notes := "Sensitive evidence pack. Do not share externally without policy review." }
  let master_receipt : MasterReceipt := {
    receipt_version := "halo.master.v1",
    receipt_id := input.receiptId,
    content_hash := contentHash,
    signature_scheme := "ed25519",
    signature := signature,
    metadata := { source := "valet-ingest-bridge", ingested_at := input.ingestedAt,
                  source_dir := input.sourceDir,
                  source_receipt_file := input.sourceReceiptFile, public_key := none },
    verification := { derived_status := "PASS", verified_at := input.verifiedAt,
                      valet_hmac_strategy := hmacStrategyString input.matchedHmacStrategy,
                      checks := ["valet_hmac_verified", "content_hash_computed",
                                 "ed25519_checkpoint_generated"] } }
  { master_receipt := master_receipt, evidence_pack := evidence_pack }

/-- Inputs of `verifyCheckpointOffline` (optional keys mirror the source's
optional fields). -/
structure VerifyCheckpointInput where
  masterReceipt : MasterReceipt
  evidencePack : EvidencePack
  verifyKeyPem : Option String
  signingKeyPem : Option String

/-- Result shape `{ok, reason?}` of the offline checkpoint verifier. -/
structure OkReason where
  ok : Bool
  reason : Option String := none

/-- Model of `asString` applied to an optional field. -/
def asNonEmpty (o : Option String) : Option String :=
  o.bind (fun s => if s.length == 0 then none else some s)

/-- Model of `verifyCheckpointOffline`: recompute the transcript hash and
require three-way hash agreement, then reconstruct the signed envelope and
verify the Ed25519 signature under the supplied, derived, or embedded public
key, with the source's named failure reasons. -/
def verifyCheckpointOffline (input : VerifyCheckpointInput) : OkReason :=
  let canonicalTranscript := canonicalJson input.evidencePack.transcript
  let expectedHash := sha256Hex canonicalTranscript
  if expectedHash ≠ input.masterReceipt.content_hash then
    { ok := false, reason := some "content_hash mismatch between master receipt and evidence transcript" }
  else if input.evidencePack.content_hash ≠ input.masterReceipt.content_hash then
    { ok := false, reason := some "evidence_pack.content_hash mismatch with master receipt" }
  else
    let payload := DOMAIN_PREFIX ++ canonicalJson (envelopeJson
      input.masterReceipt.receipt_version input.masterReceipt.receipt_id
      input.masterReceipt.content_hash input.masterReceipt.signature_scheme)
    let publicKeyPem := (input.verifyKeyPem.orElse (fun _ =>
      (input.signingKeyPem.map derivePublicKeyPemFromPrivate).orElse (fun _ =>
        asNonEmpty input.masterReceipt.metadata.public_key)))
    match publicKeyPem with
    | none => { ok := false, reason := some "missing verify key (RECEIPT_VERIFY_KEY) for Ed25519 verification" }
    | some pk =>
        if ed25519Verify pk payload input.masterReceipt.signature then { ok := true }
        else { ok := false, reason := some "ed25519 signature verification failed" }

/-- Model of `flipHexChar`: replace the first character by `"1"` when it
lowercases to `"0"` and by `"0"` otherwise; the empty string becomes `"0"`. -/
def flipHexChar (input : String) : String :=
  match input.data with
  | [] => "0"
  | c :: rest => ⟨(if c.toLower = '0' then '1' else '0') :: rest⟩

/-- The disallowed plaintext keys of `assertMasterHasNoPlaintext`. -/
def disallowedKeys : List String :=
  ["transcript", "messages", "prompt", "completion", "response", "output_text", "raw_response"]

/-- JSON view of the metadata object (insertion order of the source's object
literal; `public_key` present only when set). -/
def metadataJson (m : MasterMetadata) : Json :=
  .obj ([("source", .str m.source), ("ingested_at", .str m.ingested_at),
         ("source_dir", .str m.source_dir), ("source_receipt_file", .str m.source_receipt_file)]
    ++ (match m.public_key with | none => [] | some k => [("public_key", .str k)]))

/-- JSON view of the verification block. -/
def verificationJson (v : MasterVerification) : Json :=
  .obj [("derived_status", .str v.derived_status), ("verified_at", .str v.verified_at),
        ("valet_hmac_strategy", .str v.valet_hmac_strategy),
        ("checks", .arr (v.checks.map (fun c => .str c)))]

/-- JSON view of a master receipt (field insertion order of the source). -/
def masterToJson (m : MasterReceipt) : Json :=
  .obj [("receipt_version", .str m.receipt_version), ("receipt_id", .str m.receipt_id),
        ("content_hash", .str m.content_hash), ("signature_scheme", .str m.signature_scheme),
        ("signature", .str m.signature), ("metadata", metadataJson m.metadata),
        ("verification", verificationJson m.verification)]

mutual

/-- Recursive scan for a disallowed key anywhere in a JSON object tree
(the source's explicit stack only changes which key a failure reason names,
not whether one is found). -/
def hasDisallowedKey : Json → Bool
  | .null | .bool _ | .num _ | .str _ => false
  | .arr items => hdkList items
  | .obj fields => hdkFields fields

def hdkList : List Json → Bool
  | [] => false
  | x :: xs => hasDisallowedKey x || hdkList xs

def hdkFields : List (String × Json) → Bool
  | [] => false
  | (k, v) :: fs => decide (k ∈ disallowedKeys) || hasDisallowedKey v || hdkFields fs

end

/-- Result shape of `assertMasterHasNoPlaintext`. -/
structure OkReasonStr where
  ok : Bool
  reason : String

/-- Model of `assertMasterHasNoPlaintext`: fail iff some disallowed plaintext
key occurs anywhere in the master receipt's object tree. -/
def assertMasterHasNoPlaintext (masterReceipt : MasterReceipt) : OkReasonStr :=
  if hasDisallowedKey (masterToJson masterReceipt) then
    { ok := false, reason := "Disallowed plaintext key found in master receipt" }
  else
    { ok := true, reason := "OK" }

/-- Quoted `JSON.stringify` rendering of one string value. -/
def svq (s : String) : List Char :=
  (jsonEscape s).data

/-- Comma-separated quoted strings (a `JSON.stringify` string array body). -/
def svqList : List String → List Char
  | [] => []
  | [s] => svq s
  | s :: s2 :: ss => svq s ++ ',' :: svqList (s2 :: ss)

/-- Model of `JSON.stringify(master_receipt)` (compact form, insertion-order
keys), written as the explicit character sequence the fixed-shape receipt
serializes to, with the structural separators `:`/`,`/braces/brackets kept
as explicit characters between the quoted fragments. -/
def stringifyMaster (m : MasterReceipt) : List Char :=
  "\x7b\"receipt_version\"".data ++ ':' :: (svq m.receipt_version ++ ',' :: (
  "\"receipt_id\"".data ++ ':' :: (svq m.receipt_id ++ ',' :: (
  "\"content_hash\"".data ++ ':' :: (svq m.content_hash ++ ',' :: (
  "\"signature_scheme\"".data ++ ':' :: (svq m.signature_scheme ++ ',' :: (
  "\"signature\"".data ++ ':' :: (svq m.signature ++ ',' :: (
  "\"metadata\"".data ++ ':' :: ('\x7b' :: "\"source\"".data ++ ':' :: (svq m.metadata.source ++ ',' :: (
  "\"ingested_at\"".data ++ ':' :: (svq m.metadata.ingested_at ++ ',' :: (
  "\"source_dir\"".data ++ ':' :: (svq m.metadata.source_dir ++ ',' :: (
  "\"source_receipt_file\"".data ++ ':' :: (svq m.metadata.source_receipt_file ++ (
  (match m.metadata.public_key with
   | none => []
   | some k => ',' :: ("\"public_key\"".data ++ ':' :: svq k)) ++
  '\x7d' :: ',' :: ("\"verification\"".data ++ ':' :: ('\x7b' :: "\"derived_status\"".data ++ ':' :: (svq m.verification.derived_status ++ ',' :: (
  "\"verified_at\"".data ++ ':' :: (svq m.verification.verified_at ++ ',' :: (
  "\"valet_hmac_strategy\"".data ++ ':' :: (svq m.verification.valet_hmac_strategy ++ ',' :: (
  "\"checks\"".data ++ ':' :: '[' :: (svqList m.verification.checks ++ ']' :: '\x7d' :: '\x7d' :: []))))))))))))))))))))))))))))

/-- The 12-character pattern `"transcript"` (with its JSON quotes) whose
absence from the serialized master receipt §8 claims; this is the form the
repository's own regression test checks with `includes('"transcript"')`. -/
def quotedTranscriptPat : List Char :=
  '\"' :: "transcript".data ++ ['\"']

/-! ### Proof infrastructure -/

/-- Occurrence of `s` in `text` at absolute position `pos`. -/
def occursAt (text : List Char) (pos : Nat) (s : List Char) : Prop :=
  (text.drop pos).take s.length = s

/-- The sentences of `ss` occur in `text`, in order, each at or after the
running cursor, with the cursor advancing past each occurrence — the
invariant maintained by the tagger's monotonic `indexOf` loop. -/
inductive OccursInOrder (text : List Char) : Int → List (List Char) → Prop where
  | nil (c : Int) : OccursInOrder text c []
  | cons (c : Int) (pos : Nat) (s : List Char) (rest : List (List Char)) :
      c ≤ (pos : Int) → occursAt text pos s →
      OccursInOrder text ((pos : Int) + s.length) rest →
      OccursInOrder text c (s :: rest)

/-- Structural induction over `Json` with membership-indexed hypotheses for
the nested lists. -/
def jsonRecMem {motive : Json → Prop}
    (hnull : motive .null) (hbool : ∀ b, motive (.bool b))
    (hnum : ∀ s, motive (.num s)) (hstr : ∀ s, motive (.str s))
    (harr : ∀ xs, (∀ x ∈ xs, motive x) → motive (.arr xs))
    (hobj : ∀ fs, (∀ p ∈ fs, motive p.2) → motive (.obj fs)) :
    ∀ v, motive v
  | .null => hnull
  | .bool b => hbool b
  | .num s => hnum s
  | .str s => hstr s
  | .arr xs => harr xs (fun x hx =>
      jsonRecMem hnull hbool hnum hstr harr hobj x)
  | .obj fs => hobj fs (fun p hp =>
      jsonRecMem hnull hbool hnum hstr harr hobj p.2)
decreasing_by
  · have h := List.sizeOf_lt_of_mem hx
    simp only [Json.arr.sizeOf_spec]
    omega
  · have h := List.sizeOf_lt_of_mem hp
    have h2 : sizeOf p.2 < sizeOf p := by
      obtain ⟨a, b⟩ := p
      simp [Prod.mk.sizeOf_spec]
    simp only [Json.obj.sizeOf_spec]
    omega

/-- Concrete checkpoint-production input used by the tamper-detection
witness. -/
def checkpointDemoInput : CreateMasterInput :=
  { transcript := .obj [], sourceDir := "d", sourceReceiptFile := "r",
    sourceFiles := [], matchedHmacStrategy := .canonical_transcript,
    signingKeyPem := "sk", receiptId := "rid", ingestedAt := "ia",
    verifiedAt := "va", claimIds := fun _ => "c", taggedAt := "ta" }

/-- Concrete offline-verification input (the pair produced from
`checkpointDemoInput`, verified under the key derived from the signing key). -/
def checkpointDemoVerifyInput : VerifyCheckpointInput :=
  { masterReceipt := (createMasterReceipt checkpointDemoInput).master_receipt,
    evidencePack := (createMasterReceipt checkpointDemoInput).evidence_pack,
    verifyKeyPem := none, signingKeyPem := some "sk" }

/-- Innocuous checkpoint input used by the no-plaintext witness. -/
def plaintextDemoInput : CreateMasterInput :=
  { transcript := .obj [], sourceDir := "dist/run", sourceReceiptFile := "receipt.json",
    sourceFiles := [], matchedHmacStrategy := .canonical_transcript,
    signingKeyPem := "sk", receiptId := "rid-1", ingestedAt := "2024-01-01T00:00:00Z",
    verifiedAt := "2024-01-01T00:00:01Z", claimIds := fun _ => "c", taggedAt := "ta" }

/-- Checkpoint input whose source directory is the literal string
`transcript`, used by the no-plaintext counterexample. -/
def plaintextCexInput : CreateMasterInput :=
  { transcript := .obj [], sourceDir := "transcript", sourceReceiptFile := "receipt.json",
    sourceFiles := [], matchedHmacStrategy := .canonical_transcript,
    signingKeyPem := "sk", receiptId := "rid-1", ingestedAt := "2024-01-01T00:00:00Z",
    verifiedAt := "2024-01-01T00:00:01Z", claimIds := fun _ => "c", taggedAt := "ta" }

/-! ## Theorems

The remainder of the file settles the spec's claims against the embedded
definitions above. -/

/-- C10: `createMasterReceipt` unconditionally sets
`verification.derived_status` to `"PASS"` and `verification.checks` to the
same fixed three-element list, for every input: the self-reported
verification status of a freshly produced master receipt never varies with
the inputs and never reflects a failed check. -/
theorem createMasterReceipt_verification_constant (input : CreateMasterInput) :
    (createMasterReceipt input).master_receipt.verification.derived_status = "PASS" ∧
    (createMasterReceipt input).master_receipt.verification.checks =
      ["valet_hmac_verified", "content_hash_computed", "ed25519_checkpoint_generated"] :=
  ⟨rfl, rfl⟩

/-- C4: for every transcript input, the master receipt and evidence pack
returned by `createMasterReceipt` carry the same `content_hash`, and that
value equals `sha256Hex (canonicalJson transcript)`. -/
theorem createMasterReceipt_content_hash_agreement (input : CreateMasterInput) :
    (createMasterReceipt input).master_receipt.content_hash =
      (createMasterReceipt input).evidence_pack.content_hash ∧
    (createMasterReceipt input).master_receipt.content_hash =
      sha256Hex (canonicalJson input.transcript) :=
  ⟨rfl, rfl⟩

/-- C2: verifying a freshly signed receipt with the same key succeeds, for
every non-empty response text and every key (and every generated id and
timestamp). -/
theorem verifyReceipt_signResponse_roundtrip (response key id timestamp : String)
    (hne : response ≠ "") :
    (verifyReceipt (signResponse response key id timestamp) key).valid = true := by
  simp [verifyReceipt, signResponse]

/-- Witness for C2 at a concrete non-empty response and key. -/
theorem verifyReceipt_signResponse_roundtrip_witness :
    "hello" ≠ "" ∧
    (verifyReceipt (signResponse "hello" "secret-key" "id-1" "2024-01-01T00:00:00Z")
      "secret-key").valid = true :=
  ⟨by decide,
   verifyReceipt_signResponse_roundtrip "hello" "secret-key" "id-1" "2024-01-01T00:00:00Z"
     (by decide)⟩

/-- C9: for every ledger and source text, `validateLedger` reports a
`MISSING_ID` violation for each claim whose id is empty or whitespace-only,
reports a `NO_SPAN_REF` violation for each claim with zero span references,
and returns `passed = true` iff its violation list is empty.  (The model is a
total function, reflecting that the source reports all failure through the
violation list and never throws.) -/
theorem validateLedger_soundness (ledger : EliLedger) (sourceText : List Char) :
    (∀ claim ∈ ledger.claims, claim.id.data.all isJsWhitespace = true →
      ∃ v ∈ (validateLedger ledger sourceText).violations,
        v.claimId = claim.id ∧ v.rule = "MISSING_ID") ∧
    (∀ claim ∈ ledger.claims, claim.span_refs = [] →
      ∃ v ∈ (validateLedger ledger sourceText).violations,
        v.claimId = claim.id ∧ v.rule = "NO_SPAN_REF") ∧
    ((validateLedger ledger sourceText).passed = true ↔
      (validateLedger ledger sourceText).violations = []) := by
  refine ⟨?_, ?_, ?_⟩
  · intro claim hc hid
    refine ⟨⟨claim.id, "MISSING_ID", "Claim is missing an id"⟩, ?_, rfl, rfl⟩
    simp only [validateLedger]
    exact List.mem_flatMap.mpr ⟨claim, hc, by simp [claimViolations, hid]⟩
  · intro claim hc hsp
    refine ⟨⟨claim.id, "NO_SPAN_REF", "Claim has no span_refs"⟩, ?_, rfl, rfl⟩
    simp only [validateLedger]
    exact List.mem_flatMap.mpr ⟨claim, hc, by simp [claimViolations, hsp]⟩
  · simp [validateLedger, List.isEmpty_iff]

/-- Witness for C9 on a one-claim ledger with a blank id and no spans. -/
theorem validateLedger_soundness_witness :
    (∃ v ∈ (validateLedger
        ⟨"t", 1, [⟨"", "FACT", "x", []⟩]⟩ "ab".data).violations,
      v.claimId = "" ∧ v.rule = "MISSING_ID") ∧
    (∃ v ∈ (validateLedger
        ⟨"t", 1, [⟨"", "FACT", "x", []⟩]⟩ "ab".data).violations,
      v.claimId = "" ∧ v.rule = "NO_SPAN_REF") ∧
    ((validateLedger ⟨"t", 1, [⟨"", "FACT", "x", []⟩]⟩ "ab".data).passed = true ↔
      (validateLedger ⟨"t", 1, [⟨"", "FACT", "x", []⟩]⟩ "ab".data).violations = []) := by
  have h := validateLedger_soundness ⟨"t", 1, [⟨"", "FACT", "x", []⟩]⟩ "ab".data
  exact ⟨h.1 ⟨"", "FACT", "x", []⟩ (by simp) (by decide),
    h.2.1 ⟨"", "FACT", "x", []⟩ (by simp) rfl, h.2.2⟩

/-! ### Injectivity of the modelled hash/MAC -/

/-- Characters determined by their code point. -/
theorem char_toNat_inj {a b : Char} (h : a.toNat = b.toNat) : a = b := by
  have := Char.ofNat_toNat a
  rw [← Char.ofNat_toNat a, ← Char.ofNat_toNat b, h]

/-- The hex digit map is injective on digits. -/
theorem hexChar_inj {m n : Nat} (hm : m < 16) (hn : n < 16)
    (h : hexChar m = hexChar n) : m = n := by
  have key : ∀ (a b : Fin 16), hexChar a.1 = hexChar b.1 → a = b := by decide
  have := key ⟨m, hm⟩ ⟨n, hn⟩ h
  exact congrArg Fin.val this

/-- Six-hex-digit encoding is injective below `16^6`. -/
theorem hexFixed6_inj {m n : Nat} (hm : m < 16777216) (hn : n < 16777216)
    (h : hexFixed6 m = hexFixed6 n) : m = n := by
  simp only [hexFixed6, List.cons.injEq, and_true] at h
  obtain ⟨e5, e4, e3, e2, e1, e0⟩ := h
  have d5 := hexChar_inj (Nat.mod_lt _ (by norm_num)) (Nat.mod_lt _ (by norm_num)) e5
  have d4 := hexChar_inj (Nat.mod_lt _ (by norm_num)) (Nat.mod_lt _ (by norm_num)) e4
  have d3 := hexChar_inj (Nat.mod_lt _ (by norm_num)) (Nat.mod_lt _ (by norm_num)) e3
  have d2 := hexChar_inj (Nat.mod_lt _ (by norm_num)) (Nat.mod_lt _ (by norm_num)) e2
  have d1 := hexChar_inj (Nat.mod_lt _ (by norm_num)) (Nat.mod_lt _ (by norm_num)) e1
  have d0 := hexChar_inj (Nat.mod_lt _ (by norm_num)) (Nat.mod_lt _ (by norm_num)) e0
  omega

/-- Every code point fits in six hex digits. -/
theorem char_toNat_lt_hexBound (c : Char) : c.toNat < 16777216 := by
  rcases c.valid with h | ⟨_, h2⟩
  · exact Nat.lt_trans h (by norm_num)
  · exact Nat.lt_trans h2 (by norm_num)

/-- The block encoding underlying `sha256Hex` is injective. -/
theorem hexBlocks_inj : ∀ (l₁ l₂ : List Char),
    (l₁.map (fun c => hexFixed6 c.toNat)).flatten = (l₂.map (fun c => hexFixed6 c.toNat)).flatten →
    l₁ = l₂ := by
  intro l₁
  induction l₁ with
  | nil =>
      intro l₂ h
      cases l₂ with
      | nil => rfl
      | cons b bs => simp [hexFixed6] at h
  | cons a as ih =>
      intro l₂ h
      cases l₂ with
      | nil => simp [hexFixed6] at h
      | cons b bs =>
          simp only [List.map_cons, List.flatten_cons] at h
          have hlen : (hexFixed6 a.toNat).length = (hexFixed6 b.toNat).length := by
            simp [hexFixed6]
          obtain ⟨hblock, hrest⟩ := List.append_inj h hlen
          have hab : a = b :=
            char_toNat_inj (hexFixed6_inj (char_toNat_lt_hexBound a) (char_toNat_lt_hexBound b) hblock)
          rw [hab, ih bs hrest]

/-- The modelled SHA-256 is injective (the ideal collision-free hash). -/
theorem sha256Hex_inj {s₁ s₂ : String} (h : sha256Hex s₁ = sha256Hex s₂) : s₁ = s₂ := by
  have hd : hexOfString s₁ = hexOfString s₂ := congrArg String.data h
  exact String.ext (hexBlocks_inj s₁.data s₂.data hd)

/-- The modelled HMAC is injective in the payload for a fixed key (the ideal
unforgeable MAC). -/
theorem hmacSha256Hex_inj {key p₁ p₂ : String}
    (h : hmacSha256Hex key p₁ = hmacSha256Hex key p₂) : p₁ = p₂ := by
  have hd : hexOfString key ++ hexOfString p₁ = hexOfString key ++ hexOfString p₂ :=
    congrArg String.data h
  exact String.ext (hexBlocks_inj p₁.data p₂.data (List.append_cancel_left hd))

/-- C3 (amended): for every receipt produced by `signResponse`, (a) any
mutation of the `response` field makes `verifyReceipt` with the same key
return `valid = false` with a reason containing `"hash mismatch"`; (b) any
mutation of the `signature` field that changes its hex-decoded byte sequence
makes `verifyReceipt` return `valid = false` with a reason containing
`"signature"`.  (A mutation of the signature string that decodes to the same
bytes — e.g. changing a hex digit's case — is accepted by the byte-level
comparison; see the counterexample.) -/
theorem verifyReceipt_tamper_sensitivity (response key id timestamp : String) :
    (∀ response2, response2 ≠ response →
      (verifyReceipt { signResponse response key id timestamp with response := response2 }
          key).valid = false ∧
      ∃ r, (verifyReceipt { signResponse response key id timestamp with response := response2 }
          key).reason = some r ∧ containsStr r "hash mismatch" = true) ∧
    (∀ signature2,
      hexDecode signature2.data ≠
        hexDecode (signResponse response key id timestamp).signature.data →
      (verifyReceipt { signResponse response key id timestamp with signature := signature2 }
          key).valid = false ∧
      ∃ r, (verifyReceipt { signResponse response key id timestamp with signature := signature2 }
          key).reason = some r ∧ containsStr r "signature" = true) := by
  constructor
  · intro response2 hne
    have hhash : sha256Hex response2 ≠ sha256Hex response := fun h => hne (sha256Hex_inj h)
    refine ⟨?_, ?_⟩
    · simp [verifyReceipt, signResponse, hhash]
    · refine ⟨"response hash mismatch – content may have been tampered", ?_, by decide⟩
      simp [verifyReceipt, signResponse, hhash]
  · intro signature2 hbytes
    have hhash : ¬ (sha256Hex response ≠ sha256Hex response) := by simp
    by_cases hlen : (hexDecode signature2.data).length =
        (hexDecode (signResponse response key id timestamp).signature.data).length
    · refine ⟨?_, ?_⟩
      · simp only [verifyReceipt, signResponse] at *
        simp [hlen, hbytes]
      · refine ⟨"signature mismatch – receipt may have been forged", ?_, by decide⟩
        simp only [verifyReceipt, signResponse] at *
        simp [hlen, hbytes]
    · refine ⟨?_, ?_⟩
      · simp only [verifyReceipt, signResponse] at *
        simp [hlen]
      · refine ⟨"signature length mismatch", ?_, by decide⟩
        simp only [verifyReceipt, signResponse] at *
        simp [hlen]

/-- Counterexample for C3 as stated: changing the case of the signature's hex
digits is a mutation of the `signature` field (the string differs), yet
`verifyReceipt` still returns `valid = true`, because `Buffer.from(s, "hex")`
decodes hex case-insensitively and only the decoded bytes are compared. -/
theorem verifyReceipt_signature_case_mutation_cex :
    strUpper (signResponse "a" "k" "i" "t").signature ≠ (signResponse "a" "k" "i" "t").signature ∧
    (verifyReceipt { signResponse "a" "k" "i" "t" with
        signature := strUpper (signResponse "a" "k" "i" "t").signature } "k").valid = true := by
  constructor
  · decide
  · decide

/-- Witness for the amended C3 at concrete mutations of each kind. -/
theorem verifyReceipt_tamper_sensitivity_witness :
    ((verifyReceipt { signResponse "a" "k" "i" "t" with response := "b" } "k").valid = false ∧
      ∃ r, (verifyReceipt { signResponse "a" "k" "i" "t" with response := "b" } "k").reason =
        some r ∧ containsStr r "hash mismatch" = true) ∧
    ((verifyReceipt { signResponse "a" "k" "i" "t" with signature := "00" } "k").valid = false ∧
      ∃ r, (verifyReceipt { signResponse "a" "k" "i" "t" with signature := "00" } "k").reason =
        some r ∧ containsStr r "signature" = true) := by
  have h := verifyReceipt_tamper_sensitivity "a" "k" "i" "t"
  exact ⟨h.1 "b" (by decide), h.2 "00" (by decide)⟩

/-- C8 (amended): on the exact input
`"The earth orbits the sun. This implies gravity is real."` the tagger yields
exactly 2 claims whose types in order are `[ASSERTION, FACT]` — the second
sentence matches the FACT verb marker, while bare `implies` without a
following `that` does not match the INFERENCE patterns
(`implies? that` requires the word `that`) — and `validateLedger` on that
ledger with the same source text returns `passed = true`, for any non-blank
generated claim ids. -/
theorem tagResponse_scenario (ids : Nat → String) (taggedAt : String)
    (h0 : (ids 0).data.all isJsWhitespace = false)
    (h1 : (ids 1).data.all isJsWhitespace = false) :
    (tagResponse ids taggedAt
        "The earth orbits the sun. This implies gravity is real.".data).claims.length = 2 ∧
    (tagResponse ids taggedAt
        "The earth orbits the sun. This implies gravity is real.".data).claims.map
      (fun c => c.type) = ["ASSERTION", "FACT"] ∧
    (validateLedger
      (tagResponse ids taggedAt
        "The earth orbits the sun. This implies gravity is real.".data)
      "The earth orbits the sun. This implies gravity is real.".data).passed = true := by
  have hcl : (tagResponse ids taggedAt
      "The earth orbits the sun. This implies gravity is real.".data).claims =
      [{ id := ids 0, type := "ASSERTION", text := "The earth orbits the sun.",
         span_refs := [((0 : Int), (25 : Int))] },
       { id := ids 1, type := "FACT", text := "This implies gravity is real.",
         span_refs := [((26 : Int), (55 : Int))] }] := rfl
  have hv0 : claimViolations "The earth orbits the sun. This implies gravity is real.".data
      { id := ids 0, type := "ASSERTION", text := "The earth orbits the sun.",
        span_refs := [((0 : Int), (25 : Int))] } = [] := by
    simp only [claimViolations, h0]
    rfl
  have hv1 : claimViolations "The earth orbits the sun. This implies gravity is real.".data
      { id := ids 1, type := "FACT", text := "This implies gravity is real.",
        span_refs := [((26 : Int), (55 : Int))] } = [] := by
    simp only [claimViolations, h1]
    rfl
  refine ⟨by rw [hcl]; rfl, by rw [hcl]; rfl, ?_⟩
  have hv : (tagResponse ids taggedAt
      "The earth orbits the sun. This implies gravity is real.".data).claims.flatMap
      (claimViolations "The earth orbits the sun. This implies gravity is real.".data) = [] := by
    rw [hcl]
    simp [hv0, hv1]
  simp [validateLedger, hv]

/-- Counterexample for C8 as stated: on the scenario input the two claim
types are `[ASSERTION, FACT]`, not `[FACT, INFERENCE]` — `\b(is|...)\b.*\.`
matches `"is real."` so the second sentence is a FACT, and the INFERENCE
alternation only accepts `implies that`, not bare `implies`. -/
theorem tagResponse_scenario_cex :
    (tagResponse (fun n => "id" ++ toString n) "2024-01-01T00:00:00Z"
        "The earth orbits the sun. This implies gravity is real.".data).claims.map
      (fun c => c.type) = ["ASSERTION", "FACT"] ∧
    (["ASSERTION", "FACT"] : List String) ≠ ["FACT", "INFERENCE"] := by
  exact ⟨by decide, by decide⟩

/-- Witness for the amended C8 with concrete non-blank ids. -/
theorem tagResponse_scenario_witness :
    (tagResponse (fun n => "id" ++ toString n) "2024-01-01T00:00:00Z"
        "The earth orbits the sun. This implies gravity is real.".data).claims.length = 2 ∧
    (tagResponse (fun n => "id" ++ toString n) "2024-01-01T00:00:00Z"
        "The earth orbits the sun. This implies gravity is real.".data).claims.map
      (fun c => c.type) = ["ASSERTION", "FACT"] ∧
    (validateLedger
      (tagResponse (fun n => "id" ++ toString n) "2024-01-01T00:00:00Z"
        "The earth orbits the sun. This implies gravity is real.".data)
      "The earth orbits the sun. This implies gravity is real.".data).passed = true :=
  tagResponse_scenario (fun n => "id" ++ toString n) "2024-01-01T00:00:00Z"
    (by decide) (by decide)

/-- Flipping the first hex character always changes the string. -/
theorem flipHexChar_ne (s : String) : flipHexChar s ≠ s := by
  intro h
  unfold flipHexChar at h
  cases hs : s.data with
  | nil =>
      rw [hs] at h
      have hd := congrArg String.data h
      rw [hs] at hd
      simp at hd
  | cons c rest =>
      rw [hs] at h
      have hd := congrArg String.data h
      rw [hs] at hd
      simp only [List.cons.injEq] at hd
      obtain ⟨hhead, -⟩ := hd
      by_cases h0 : c.toLower = '0'
      · rw [if_pos h0] at hhead
        rw [← hhead] at h0
        exact absurd h0 (by decide)
      · rw [if_neg h0] at hhead
        rw [← hhead] at h0
        exact h0 (by decide)

/-- C6: for every master-receipt/evidence-pack pair accepted by
`verifyCheckpointOffline`, (a) replacing the evidence transcript by any value
whose canonical JSON differs makes verification return `ok = false`, and
(b) flipping one hex character of the master receipt's `content_hash` (as
`flipHexChar` does) makes verification return `ok = false`. -/
theorem verifyCheckpointOffline_tamper_detection (input : VerifyCheckpointInput)
    (hok : (verifyCheckpointOffline input).ok = true) :
    (∀ t2, canonicalJson t2 ≠ canonicalJson input.evidencePack.transcript →
      (verifyCheckpointOffline { input with
        evidencePack := { input.evidencePack with transcript := t2 } }).ok = false) ∧
    (verifyCheckpointOffline { input with
      masterReceipt := { input.masterReceipt with
        content_hash := flipHexChar input.masterReceipt.content_hash } }).ok = false := by
  by_cases hc : sha256Hex (canonicalJson input.evidencePack.transcript) ≠
      input.masterReceipt.content_hash
  · simp [verifyCheckpointOffline, hc] at hok
  · have h1 : sha256Hex (canonicalJson input.evidencePack.transcript) =
        input.masterReceipt.content_hash := not_not.mp hc
    constructor
    · intro t2 ht
      have hne : sha256Hex (canonicalJson t2) ≠ input.masterReceipt.content_hash := by
        rw [← h1]
        exact fun h => ht (sha256Hex_inj h)
      simp [verifyCheckpointOffline, hne]
    · have hne : sha256Hex (canonicalJson input.evidencePack.transcript) ≠
          flipHexChar input.masterReceipt.content_hash := by
        rw [h1]
        exact fun h => flipHexChar_ne input.masterReceipt.content_hash h.symm
      simp [verifyCheckpointOffline, hne]

/-- Witness for C6: a concrete checkpoint pair that verifies, whose tampered
variants both fail. -/
theorem verifyCheckpointOffline_tamper_detection_witness :
    (verifyCheckpointOffline checkpointDemoVerifyInput).ok = true ∧
    (verifyCheckpointOffline { checkpointDemoVerifyInput with
      evidencePack := { checkpointDemoVerifyInput.evidencePack with
        transcript := Json.null } }).ok = false ∧
    (verifyCheckpointOffline { checkpointDemoVerifyInput with
      masterReceipt := { checkpointDemoVerifyInput.masterReceipt with
        content_hash := flipHexChar checkpointDemoVerifyInput.masterReceipt.content_hash } }).ok
      = false := by
  have h := verifyCheckpointOffline_tamper_detection checkpointDemoVerifyInput (by decide)
  exact ⟨by decide, h.1 Json.null (by decide), h.2⟩

/-! ### C1: order-insensitivity of the canonicalizer -/

/-- Unfolding of `canonList` to `map`. -/
theorem canonList_eq (xs : List Json) : canonList xs = xs.map canonicalJson := by
  induction xs with
  | nil => rfl
  | cons x xs ih => simp [canonList, ih]

/-- Unfolding of `canonFields` to `map`. -/
theorem canonFields_eq (fs : List (String × Json)) :
    canonFields fs = fs.map (fun p => (p.1, canonicalJson p.2)) := by
  induction fs with
  | nil => rfl
  | cons p fs ih =>
      obtain ⟨k, v⟩ := p
      simp [canonFields, ih]

/-- Unfolding of `sortList` to `map`. -/
theorem sortList_eq (xs : List Json) : sortList xs = xs.map sortJson := by
  induction xs with
  | nil => rfl
  | cons x xs ih => simp [sortList, ih]

/-- Unfolding of `sortFields` to `map`. -/
theorem sortFields_eq (fs : List (String × Json)) :
    sortFields fs = fs.map (fun p => (p.1, sortJson p.2)) := by
  induction fs with
  | nil => rfl
  | cons p fs ih =>
      obtain ⟨k, v⟩ := p
      simp [sortFields, ih]

/-- Membership form of `wfList`. -/
theorem wfList_iff (xs : List Json) : wfList xs = true ↔ ∀ x ∈ xs, wfJson x = true := by
  induction xs with
  | nil => simp [wfList]
  | cons x xs ih => simp [wfList, ih]

/-- Membership form of `wfFields`. -/
theorem wfFields_iff (fs : List (String × Json)) :
    wfFields fs = true ↔ ∀ p ∈ fs, wfJson p.2 = true := by
  induction fs with
  | nil => simp [wfFields]
  | cons p fs ih =>
      obtain ⟨k, v⟩ := p
      simp [wfFields, ih]

/-- `nodupKeys` decides `List.Nodup`. -/
theorem nodupKeys_iff (ks : List String) : nodupKeys ks = true ↔ ks.Nodup := by
  induction ks with
  | nil => simp [nodupKeys]
  | cons k ks ih => simp [nodupKeys, ih, List.nodup_cons]

/-- `sortedInsert` permutes the element onto the list. -/
theorem sortedInsert_perm {α : Type} (le : α → α → Bool) (a : α) (l : List α) :
    (sortedInsert le a l).Perm (a :: l) := by
  induction l with
  | nil => simp [sortedInsert]
  | cons b bs ih =>
      simp only [sortedInsert]
      by_cases h : le a b = true
      · rw [if_pos h]
      · rw [if_neg h]
        exact (ih.cons b).trans (List.Perm.swap a b bs)

/-- `stableSort` is a permutation. -/
theorem stableSort_perm {α : Type} (le : α → α → Bool) (l : List α) :
    (stableSort le l).Perm l := by
  induction l with
  | nil => simp [stableSort]
  | cons x xs ih =>
      simp only [stableSort]
      exact (sortedInsert_perm le x (stableSort le xs)).trans (ih.cons x)

/-- Totality of the lexicographic comparison. -/
theorem strLeB_total : ∀ (l₁ l₂ : List Char), strLeB l₁ l₂ = true ∨ strLeB l₂ l₁ = true := by
  intro l₁
  induction l₁ with
  | nil => intro l₂; left; rfl
  | cons a as ih =>
      intro l₂
      cases l₂ with
      | nil => right; rfl
      | cons b bs =>
          by_cases hab : a = b
          · subst hab
            simp only [strLeB, if_pos rfl]
            exact ih bs
          · have hba : ¬ b = a := fun h => hab h.symm
            simp only [strLeB, if_neg hab, if_neg hba]
            have : a.toNat ≠ b.toNat := fun h => hab (char_toNat_inj h)
            rcases Nat.lt_or_ge a.toNat b.toNat with h | h
            · left; exact decide_eq_true h
            · right
              exact decide_eq_true (Nat.lt_of_le_of_ne h (fun e => this e.symm))

/-- Antisymmetry of the lexicographic comparison. -/
theorem strLeB_antisymm : ∀ (l₁ l₂ : List Char),
    strLeB l₁ l₂ = true → strLeB l₂ l₁ = true → l₁ = l₂ := by
  intro l₁
  induction l₁ with
  | nil =>
      intro l₂ _ h2
      cases l₂ with
      | nil => rfl
      | cons b bs => simp [strLeB] at h2
  | cons a as ih =>
      intro l₂ h1 h2
      cases l₂ with
      | nil => simp [strLeB] at h1
      | cons b bs =>
          by_cases hab : a = b
          · subst hab
            simp only [strLeB, if_pos rfl] at h1 h2
            rw [ih bs h1 h2]
          · have hba : ¬ b = a := fun h => hab h.symm
            simp only [strLeB, if_neg hab, if_neg hba, decide_eq_true_eq] at h1 h2
            omega

/-- Transitivity of the lexicographic comparison. -/
theorem strLeB_trans : ∀ (l₁ l₂ l₃ : List Char),
    strLeB l₁ l₂ = true → strLeB l₂ l₃ = true → strLeB l₁ l₃ = true := by
  intro l₁
  induction l₁ with
  | nil => intro l₂ l₃ _ _; rfl
  | cons a as ih =>
      intro l₂ l₃ h1 h2
      cases l₂ with
      | nil => simp [strLeB] at h1
      | cons b bs =>
          cases l₃ with
          | nil => simp [strLeB] at h2
          | cons c cs =>
              by_cases hab : a = b
              · subst hab
                simp only [strLeB, if_pos rfl] at h1
                by_cases hac : a = c
                · subst hac
                  simp only [strLeB, if_pos rfl] at h2 ⊢
                  exact ih bs cs h1 h2
                · simp only [strLeB, if_neg hac] at h2 ⊢
                  exact h2
              · by_cases hbc : b = c
                · subst hbc
                  simp only [strLeB, if_neg hab] at h1 ⊢
                  exact h1
                · simp only [strLeB, if_neg hab, if_neg hbc, decide_eq_true_eq] at h1 h2
                  by_cases hac : a = c
                  · subst hac
                    omega
                  · simp only [strLeB, if_neg hac, decide_eq_true_eq]
                    omega

/-- Totality of the rendered-field key order. -/
theorem fieldLe_total (a b : String × String) : fieldLe a b = true ∨ fieldLe b a = true :=
  strLeB_total a.1.data b.1.data

/-- Pairwise order is preserved by `sortedInsert`, for a total transitive
comparison. -/
theorem sortedInsert_pairwise {α : Type} (le : α → α → Bool)
    (htot : ∀ a b, le a b = true ∨ le b a = true)
    (htrans : ∀ a b c, le a b = true → le b c = true → le a c = true)
    (a : α) (l : List α) (h : l.Pairwise (fun x y => le x y = true)) :
    (sortedInsert le a l).Pairwise (fun x y => le x y = true) := by
  induction l with
  | nil => simp [sortedInsert]
  | cons b bs ih =>
      rw [List.pairwise_cons] at h
      obtain ⟨hb, hbs⟩ := h
      simp only [sortedInsert]
      by_cases hab : le a b = true
      · rw [if_pos hab]
        rw [List.pairwise_cons]
        refine ⟨?_, List.Pairwise.cons hb hbs⟩
        intro x hx
        rcases List.mem_cons.mp hx with rfl | hx
        · exact hab
        · exact htrans a b x hab (hb x hx)
      · rw [if_neg hab]
        rw [List.pairwise_cons]
        refine ⟨?_, ih hbs⟩
        intro x hx
        have hmem := (sortedInsert_perm le a bs).mem_iff.mp hx
        rcases List.mem_cons.mp hmem with hx2 | hx2
        · rw [hx2]
          rcases htot a b with h | h
          · exact absurd h hab
          · exact h
        · exact hb x hx2

/-- `stableSort` sorts, for a total transitive comparison. -/
theorem stableSort_pairwise {α : Type} (le : α → α → Bool)
    (htot : ∀ a b, le a b = true ∨ le b a = true)
    (htrans : ∀ a b c, le a b = true → le b c = true → le a c = true)
    (l : List α) : (stableSort le l).Pairwise (fun x y => le x y = true) := by
  induction l with
  | nil => simp [stableSort]
  | cons x xs ih =>
      simp only [stableSort]
      exact sortedInsert_pairwise le htot htrans x (stableSort le xs) ih

/-- Two sorted permutations of a rendered field list with distinct keys are
equal: the key order is total, and distinct keys make it antisymmetric. -/
theorem stableSort_fieldLe_eq_of_perm {l₁ l₂ : List (String × String)}
    (hp : l₁.Perm l₂) (hn : (l₁.map Prod.fst).Nodup) :
    stableSort fieldLe l₁ = stableSort fieldLe l₂ := by
  have htrans : ∀ (a b c : String × String),
      fieldLe a b = true → fieldLe b c = true → fieldLe a c = true :=
    fun a b c h1 h2 => strLeB_trans a.1.data b.1.data c.1.data h1 h2
  have hs₁ := stableSort_pairwise fieldLe fieldLe_total htrans l₁
  have hs₂ := stableSort_pairwise fieldLe fieldLe_total htrans l₂
  have hp' : (stableSort fieldLe l₁).Perm (stableSort fieldLe l₂) :=
    (stableSort_perm fieldLe l₁).trans (hp.trans (stableSort_perm fieldLe l₂).symm)
  have hn₁ : ((stableSort fieldLe l₁).map Prod.fst).Nodup :=
    (((stableSort_perm fieldLe l₁).map Prod.fst).symm).nodup hn
  have hn₂ : ((stableSort fieldLe l₂).map Prod.fst).Nodup := by
    have : (l₂.map Prod.fst).Nodup := ((hp.map Prod.fst)).nodup hn
    exact (((stableSort_perm fieldLe l₂).map Prod.fst).symm).nodup this
  have hpn₁ : (stableSort fieldLe l₁).Pairwise (fun x y => x.1 ≠ y.1) :=
    List.pairwise_map.mp hn₁
  have hpn₂ : (stableSort fieldLe l₂).Pairwise (fun x y => x.1 ≠ y.1) :=
    List.pairwise_map.mp hn₂
  haveI : IsAntisymm (String × String)
      (fun x y => fieldLe x y = true ∧ x.1 ≠ y.1) := by
    refine ⟨fun a b h1 h2 => ?_⟩
    exact absurd (String.ext (strLeB_antisymm a.1.data b.1.data h1.1 h2.1)) h1.2
  have hs₁' : List.Sorted (fun x y => fieldLe x y = true ∧ x.1 ≠ y.1)
      (stableSort fieldLe l₁) := hs₁.and hpn₁
  have hs₂' : List.Sorted (fun x y => fieldLe x y = true ∧ x.1 ≠ y.1)
      (stableSort fieldLe l₂) := hs₂.and hpn₂
  exact List.eq_of_perm_of_sorted hp' hs₁' hs₂'

/-- Canonical serialization is invariant under recursive key sorting, on
well-formed values. -/
theorem canonicalJson_sortJson :
    ∀ v, wfJson v = true → canonicalJson (sortJson v) = canonicalJson v := by
  intro v
  induction v using jsonRecMem with
  | hnull => intro _; rfl
  | hbool b => intro _; rfl
  | hnum s => intro _; rfl
  | hstr s => intro _; rfl
  | harr xs ih =>
      intro hwf
      have hmem : ∀ x ∈ xs, wfJson x = true := (wfList_iff xs).mp (by simpa [wfJson] using hwf)
      simp only [sortJson, canonicalJson, canonList_eq, sortList_eq]
      have : (xs.map sortJson).map canonicalJson = xs.map canonicalJson := by
        rw [List.map_map]
        exact List.map_congr_left (fun x hx => ih x hx (hmem x hx))
      rw [this]
  | hobj fs ih =>
      intro hwf
      have hwf' : nodupKeys (fs.map Prod.fst) = true ∧ wfFields fs = true := by
        simpa [wfJson, Bool.and_eq_true] using hwf
      have hmem : ∀ p ∈ fs, wfJson p.2 = true := (wfFields_iff fs).mp hwf'.2
      have hnodup : (fs.map Prod.fst).Nodup := (nodupKeys_iff _).mp hwf'.1
      simp only [sortJson, canonicalJson]
      have key : stableSort fieldLe (canonFields (stableSort keyLe (sortFields fs))) =
          stableSort fieldLe (canonFields fs) := by
        apply stableSort_fieldLe_eq_of_perm
        · rw [canonFields_eq, canonFields_eq, sortFields_eq]
          refine ((stableSort_perm keyLe _).map _).trans ?_
          rw [List.map_map]
          have hcongr : fs.map ((fun p => (p.1, canonicalJson p.2)) ∘
              (fun p => (p.1, sortJson p.2))) = fs.map (fun p => (p.1, canonicalJson p.2)) := by
            refine List.map_congr_left (fun p hp => ?_)
            simp only [Function.comp_apply]
            rw [ih p hp (hmem p hp)]
          rw [hcongr]
        · rw [canonFields_eq, sortFields_eq, List.map_map]
          have heq : (stableSort keyLe (fs.map (fun p => (p.1, sortJson p.2)))).map
              (Prod.fst ∘ (fun p => (p.1, canonicalJson p.2))) =
              (stableSort keyLe (fs.map (fun p => (p.1, sortJson p.2)))).map Prod.fst :=
            List.map_congr_left (fun p _ => rfl)
          rw [heq]
          have hperm : ((stableSort keyLe (fs.map (fun p => (p.1, sortJson p.2)))).map
              Prod.fst).Perm ((fs.map (fun p => (p.1, sortJson p.2))).map Prod.fst) :=
            (stableSort_perm keyLe _).map Prod.fst
          have hmap2 : (fs.map (fun p => (p.1, sortJson p.2))).map Prod.fst =
              fs.map Prod.fst := by
            rw [List.map_map]
            exact List.map_congr_left (fun p _ => rfl)
          rw [hmap2] at hperm
          exact hperm.symm.nodup hnodup
      rw [key]

/-- C1: for every pair of well-formed JSON-like values that are structurally
equal up to object key insertion order (equal recursive key-sorting normal
forms), `canonicalJson` returns the identical output string — object keys are
serialized in sorted order while array element order is preserved. -/
theorem canonicalJson_key_order_insensitive (v w : Json)
    (hv : wfJson v = true) (hw : wfJson w = true)
    (hsort : sortJson v = sortJson w) :
    canonicalJson v = canonicalJson w := by
  rw [← canonicalJson_sortJson v hv, ← canonicalJson_sortJson w hw, hsort]

/-- Witness for C1 at the spec's example: `{z:1,a:{c:2,b:1}}` and its
reordered variant canonicalize to `{"a":{"b":1,"c":2},"z":1}`. -/
theorem canonicalJson_key_order_insensitive_witness :
    wfJson (.obj [("z", .num "1"), ("a", .obj [("c", .num "2"), ("b", .num "1")])]) = true ∧
    wfJson (.obj [("a", .obj [("b", .num "1"), ("c", .num "2")]), ("z", .num "1")]) = true ∧
    sortJson (.obj [("z", .num "1"), ("a", .obj [("c", .num "2"), ("b", .num "1")])]) =
      sortJson (.obj [("a", .obj [("b", .num "1"), ("c", .num "2")]), ("z", .num "1")]) ∧
    canonicalJson (.obj [("a", .obj [("b", .num "1"), ("c", .num "2")]), ("z", .num "1")]) =
      "\x7b\"a\":\x7b\"b\":1,\"c\":2\x7d,\"z\":1\x7d" ∧
    canonicalJson (.obj [("z", .num "1"), ("a", .obj [("c", .num "2"), ("b", .num "1")])]) =
      canonicalJson (.obj [("a", .obj [("b", .num "1"), ("c", .num "2")]), ("z", .num "1")]) :=
  ⟨rfl, rfl, rfl, rfl,
   canonicalJson_key_order_insensitive
     (.obj [("z", .num "1"), ("a", .obj [("c", .num "2"), ("b", .num "1")])])
     (.obj [("a", .obj [("b", .num "1"), ("c", .num "2")]), ("z", .num "1")])
     rfl rfl rfl⟩

/-! ### C5: no plaintext in the master receipt -/

/-- Prepending a list and a separator character that the pattern avoids does
not affect whether the pattern occurs at the head. -/
theorem startsWithSeq_append_sep (c : Char) :
    ∀ (x p b : List Char), c ∉ p →
      startsWithSeq (x ++ c :: b) p = startsWithSeq x p := by
  intro x
  induction x with
  | nil =>
      intro p b hc
      cases p with
      | nil => rfl
      | cons q qs =>
          have hq : (c == q) = false := by
            have : c ≠ q := fun h => hc (h ▸ List.mem_cons_self q qs)
            simpa using this
          simp [startsWithSeq, hq]
  | cons a as ih =>
      intro p b hc
      cases p with
      | nil => rfl
      | cons q qs =>
          have hc' : c ∉ qs := fun h => hc (List.mem_cons_of_mem q h)
          simp [startsWithSeq, ih qs b hc']

/-- Equation for `containsSeq` on a cons cell. -/
theorem containsSeq_cons (y : Char) (t p : List Char) :
    containsSeq (y :: t) p = (startsWithSeq (y :: t) p || containsSeq t p) := by
  rw [containsSeq]

/-- Equation for `containsSeq` on the empty list. -/
theorem containsSeq_nil (p : List Char) :
    containsSeq [] p = startsWithSeq [] p := by
  rw [containsSeq]
  simp

/-- Splitting lemma: an occurrence of a pattern that avoids the separator
character lies entirely on one side of it. -/
theorem containsSeq_append_sep {c : Char} {p : List Char} (hc : c ∉ p) :
    ∀ (a b : List Char),
      containsSeq (a ++ c :: b) p = (containsSeq a p || containsSeq b p) := by
  intro a
  induction a with
  | nil =>
      intro b
      have hsw := startsWithSeq_append_sep c [] p b hc
      rw [List.nil_append] at hsw
      rw [List.nil_append, containsSeq_cons, containsSeq_nil, hsw]
  | cons x xs ih =>
      intro b
      rw [List.cons_append, containsSeq_cons, ih b, containsSeq_cons]
      rw [show (x :: (xs ++ c :: b)) = (x :: xs) ++ c :: b from rfl,
        startsWithSeq_append_sep c (x :: xs) p b hc]
      rw [Bool.or_assoc]

/-- Splitting lemma for a bare separator at the head. -/
theorem containsSeq_cons_sep {c : Char} {p : List Char} (hc : c ∉ p) (hp : p ≠ [])
    (b : List Char) : containsSeq (c :: b) p = containsSeq b p := by
  have h := containsSeq_append_sep hc [] b
  rw [List.nil_append] at h
  rw [h, containsSeq_nil]
  cases p with
  | nil => exact absurd rfl hp
  | cons q qs => simp [startsWithSeq]

/-- A match forces every pattern character into the searched list. -/
theorem startsWithSeq_mem : ∀ (l p : List Char), startsWithSeq l p = true →
    ∀ {{c : Char}}, c ∈ p → c ∈ l := by
  intro l
  induction l with
  | nil =>
      intro p h c hc
      cases p with
      | nil => cases hc
      | cons q qs => simp [startsWithSeq] at h
  | cons a as ih =>
      intro p h c hc
      cases p with
      | nil => cases hc
      | cons q qs =>
          simp only [startsWithSeq, Bool.and_eq_true, beq_iff_eq] at h
          rcases List.mem_cons.mp hc with h1 | h1
          · rw [h1, ← h.1]
            exact List.mem_cons_self a as
          · exact List.mem_cons_of_mem a (ih qs h.2 h1)

/-- A containment forces every pattern character into the searched list. -/
theorem containsSeq_mem : ∀ (l p : List Char), containsSeq l p = true →
    ∀ {{c : Char}}, c ∈ p → c ∈ l := by
  intro l
  induction l with
  | nil =>
      intro p h c hc
      rw [containsSeq_nil] at h
      exact startsWithSeq_mem [] p h hc
  | cons a as ih =>
      intro p h c hc
      rw [containsSeq_cons] at h
      rcases Bool.or_eq_true_iff.mp h with h1 | h1
      · exact startsWithSeq_mem (a :: as) p h1 hc
      · exact List.mem_cons_of_mem a (ih p h1 hc)

/-- Characters of an escaped string body come from the escapes of its
characters. -/
theorem mem_escBody {x : Char} {s : String} (h : x ∈ escBody s) :
    ∃ c ∈ s.data, x ∈ escapeChar c := by
  simp only [escBody, List.mem_flatten, List.mem_map] at h
  obtain ⟨blk, ⟨c, hc, rfl⟩, hxblk⟩ := h
  exact ⟨c, hc, hxblk⟩

/-- A quoted value chunk cannot contain the quoted-"transcript" pattern when
the letter `t` never appears in the escapes of its characters. -/
theorem contains_svq_false {v : String}
    (hx : ∀ c ∈ v.data, 't' ∉ escapeChar c) :
    containsSeq (svq v) quotedTranscriptPat = false := by
  by_contra h
  have htrue : containsSeq (svq v) quotedTranscriptPat = true := by
    cases hcs : containsSeq (svq v) quotedTranscriptPat
    · exact absurd hcs h
    · rfl
  have hmem : 't' ∈ svq v :=
    containsSeq_mem _ _ htrue (by decide : 't' ∈ quotedTranscriptPat)
  have hform : svq v = '\"' :: (escBody v ++ ['\"']) := rfl
  rw [hform] at hmem
  rcases List.mem_cons.mp hmem with h1 | h1
  · exact absurd h1 (by decide)
  · rcases List.mem_append.mp h1 with h2 | h2
    · obtain ⟨c, hc, hmem2⟩ := mem_escBody h2
      exact hx c hc hmem2
    · have h3 := List.mem_singleton.mp h2
      exact absurd h3 (by decide)

/-- Hex digits escape to themselves and never contribute a `t`. -/
theorem hexChar_escape_plain : ∀ (k : Fin 16),
    escapeChar (hexChar k.1) = [hexChar k.1] ∧ 't' ∉ escapeChar (hexChar k.1) := by
  decide

/-- Every character of a modelled digest is a hex digit. -/
theorem sha256Hex_chars {c : Char} {s : String} (h : c ∈ (sha256Hex s).data) :
    ∃ k : Nat, k < 16 ∧ c = hexChar k := by
  have h' : c ∈ hexOfString s := h
  simp only [hexOfString, List.mem_flatten, List.mem_map] at h'
  obtain ⟨blk, ⟨d, _, rfl⟩, hcblk⟩ := h'
  simp only [hexFixed6, List.mem_cons, List.not_mem_nil, or_false] at hcblk
  rcases hcblk with h1 | h1 | h1 | h1 | h1 | h1 <;>
    exact ⟨_, Nat.mod_lt _ (by norm_num), h1⟩

/-- The content-hash chunk never contains the pattern. -/
theorem contains_svq_sha256_false (s : String) :
    containsSeq (svq (sha256Hex s)) quotedTranscriptPat = false := by
  apply contains_svq_false
  intro c hc
  obtain ⟨k, hk, rfl⟩ := sha256Hex_chars hc
  exact (hexChar_escape_plain ⟨k, hk⟩).2

/-- Every character of a modelled HMAC digest is a hex digit. -/
theorem hmacSha256Hex_chars {c : Char} {k m : String}
    (h : c ∈ (hmacSha256Hex k m).data) : ∃ j : Nat, j < 16 ∧ c = hexChar j := by
  have h' : c ∈ hexOfString k ++ hexOfString m := h
  rcases List.mem_append.mp h' with h1 | h1
  · exact sha256Hex_chars (s := k) h1
  · exact sha256Hex_chars (s := m) h1

/-- The signature chunk never contains the pattern: the modelled Ed25519
signature consists of the fixed tag `ed25519-sig:` followed by hex digits,
none of which contribute a `t`. -/
theorem contains_svq_signature_false (key payload : String) :
    containsSeq (svq (ed25519Sign key payload)) quotedTranscriptPat = false := by
  apply contains_svq_false
  intro c hc
  have hc' : c ∈ ("ed25519-sig:").data ++
      (hmacSha256Hex (derivePublicKeyPemFromPrivate key) payload).data := by
    simpa [ed25519Sign, ed25519SigFor, String.data_append] using hc
  rcases List.mem_append.mp hc' with h1 | h1
  · have hlit : ∀ x ∈ ("ed25519-sig:").data, 't' ∉ escapeChar x := by decide
    exact hlit c h1
  · obtain ⟨j, hj, rfl⟩ := hmacSha256Hex_chars h1
    exact (hexChar_escape_plain ⟨j, hj⟩).2

/-- C5 (amended): every master receipt produced by `createMasterReceipt` has
no disallowed plaintext key anywhere in its object tree
(`assertMasterHasNoPlaintext` returns `ok = true`), and — provided none of
the caller-supplied metadata strings (receipt id, the two timestamps, source
directory, source receipt file) JSON-quotes to a string containing
`"transcript"` — the JSON serialization of the master receipt does not
contain the substring `"transcript"`.  (Without that proviso the substring
guarantee fails: the metadata values are embedded verbatim; see the
counterexample.) -/
theorem masterReceipt_no_plaintext (input : CreateMasterInput)
    (hrid : containsSeq (svq input.receiptId) quotedTranscriptPat = false)
    (hia : containsSeq (svq input.ingestedAt) quotedTranscriptPat = false)
    (hva : containsSeq (svq input.verifiedAt) quotedTranscriptPat = false)
    (hsd : containsSeq (svq input.sourceDir) quotedTranscriptPat = false)
    (hsrf : containsSeq (svq input.sourceReceiptFile) quotedTranscriptPat = false) :
    (assertMasterHasNoPlaintext (createMasterReceipt input).master_receipt).ok = true ∧
    containsSeq (stringifyMaster (createMasterReceipt input).master_receipt)
      quotedTranscriptPat = false := by
  constructor
  · rfl
  · have hpne : quotedTranscriptPat ≠ [] := by decide
    have hcolon : ':' ∉ quotedTranscriptPat := by decide
    have hcomma : ',' ∉ quotedTranscriptPat := by decide
    have hlbrace : '\x7b' ∉ quotedTranscriptPat := by decide
    have hrbrace : '\x7d' ∉ quotedTranscriptPat := by decide
    have hlbrack : '[' ∉ quotedTranscriptPat := by decide
    have hrbrack : ']' ∉ quotedTranscriptPat := by decide
    have hstrat : containsSeq (svq (hmacStrategyString input.matchedHmacStrategy))
        quotedTranscriptPat = false := by
      cases input.matchedHmacStrategy <;> decide
    simp only [stringifyMaster, createMasterReceipt, List.nil_append]
    simp only [containsSeq_append_sep hcolon, containsSeq_append_sep hcomma,
      containsSeq_append_sep hlbrack, containsSeq_append_sep hrbrack,
      containsSeq_append_sep hlbrace, containsSeq_append_sep hrbrace,
      containsSeq_cons_sep hlbrace hpne, containsSeq_cons_sep hrbrace hpne,
      containsSeq_cons_sep hlbrack hpne, containsSeq_cons_sep hrbrack hpne,
      containsSeq_cons_sep hcomma hpne, containsSeq_cons_sep hcolon hpne]
    simp only [hrid, hia, hva, hsd, hsrf, hstrat, contains_svq_sha256_false,
      contains_svq_signature_false, Bool.or_false, Bool.false_or]
    decide

/-- Counterexample for C5 as stated: a master receipt produced by
`createMasterReceipt` from a source directory literally named `transcript`
serializes with `"source_dir":"transcript"` in it, so the serialization does
contain the substring `"transcript"`. -/
theorem masterReceipt_no_plaintext_cex :
    containsSeq (stringifyMaster (createMasterReceipt plaintextCexInput).master_receipt)
      quotedTranscriptPat = true := by
  decide

/-- Witness for the amended C5 at an innocuous concrete input. -/
theorem masterReceipt_no_plaintext_witness :
    (assertMasterHasNoPlaintext (createMasterReceipt plaintextDemoInput).master_receipt).ok
      = true ∧
    containsSeq (stringifyMaster (createMasterReceipt plaintextDemoInput).master_receipt)
      quotedTranscriptPat = false :=
  masterReceipt_no_plaintext plaintextDemoInput
    (by decide) (by decide) (by decide) (by decide) (by decide)

/-! ### C7: tagger span invariant -/

theorem startsWithSeq_iff_take : ∀ (l p : List Char),
    startsWithSeq l p = true ↔ l.take p.length = p := by
  intro l p
  induction p generalizing l with
  | nil => simp [startsWithSeq]
  | cons b bs ih =>
      cases l with
      | nil => simp [startsWithSeq]
      | cons a as =>
          simp [startsWithSeq, List.take, ih as, beq_iff_eq, And.comm]

theorem occursAt_bound {text : List Char} {pos : Nat} {s : List Char}
    (h : occursAt text pos s) (hs : s ≠ []) :
    pos + s.length ≤ text.length := by
  have hlen := congrArg List.length h
  rw [List.length_take, List.length_drop] at hlen
  rcases Nat.le_total pos text.length with hle | hle
  · omega
  · exfalso
    have hdrop : text.drop pos = [] := List.drop_eq_nil_of_le hle
    unfold occursAt at h
    rw [hdrop] at h
    simp at h
    exact hs h

theorem idxSearch_finds : ∀ (l p : List Char) (i j : Nat), i ≤ j →
    startsWithSeq (l.drop (j - i)) p = true →
    ∃ k, idxSearch l p i = some k ∧ i ≤ k ∧ k ≤ j ∧
      startsWithSeq (l.drop (k - i)) p = true := by
  intro l
  induction l with
  | nil =>
      intro p i j hij hsw
      rw [List.drop_nil] at hsw
      refine ⟨i, ?_, le_refl i, hij, ?_⟩
      · rw [idxSearch, hsw]; simp
      · rw [List.drop_nil]
        exact hsw
  | cons c t ih =>
      intro p i j hij hsw
      by_cases hs : startsWithSeq (c :: t) p = true
      · refine ⟨i, ?_, le_refl i, hij, ?_⟩
        · rw [idxSearch, hs]; simp
        · rw [Nat.sub_self]
          exact hs
      · have hne : i ≠ j := by
          intro he
          rw [he, Nat.sub_self] at hsw
          exact hs hsw
        have hij1 : i + 1 ≤ j := by omega
        have hd : (c :: t).drop (j - i) = t.drop (j - (i + 1)) := by
          have : j - i = (j - (i + 1)) + 1 := by omega
          rw [this, List.drop_succ_cons]
        rw [hd] at hsw
        obtain ⟨k, hk, hik, hkj, hsk⟩ := ih p (i + 1) j hij1 hsw
        refine ⟨k, ?_, by omega, hkj, ?_⟩
        · rw [idxSearch]
          simp only [hs, if_false]
          exact hk
        · have hd2 : (c :: t).drop (k - i) = t.drop (k - (i + 1)) := by
            have : k - i = (k - (i + 1)) + 1 := by omega
            rw [this, List.drop_succ_cons]
          rw [hd2]
          exact hsk

theorem indexOfFrom_spec {text s : List Char} {cursor : Int} {pos : Nat}
    (hc0 : 0 ≤ cursor) (hcpos : cursor ≤ (pos : Int))
    (hocc : occursAt text pos s) (hs : s ≠ []) :
    ∃ k : Nat, indexOfFrom text s cursor = (k : Int) ∧
      cursor ≤ (k : Int) ∧ k ≤ pos ∧ occursAt text k s := by
  have hbound := occursAt_bound hocc hs
  have hslen : 0 < s.length := List.length_pos.mpr hs
  have hpos_le : pos ≤ text.length := by omega
  have hct : cursor.toNat ≤ pos := Int.toNat_le.mpr hcpos
  have hstart : min cursor.toNat text.length = cursor.toNat :=
    Nat.min_eq_left (le_trans hct hpos_le)
  have hsw : startsWithSeq ((text.drop cursor.toNat).drop (pos - cursor.toNat)) s = true := by
    rw [List.drop_drop]
    have : cursor.toNat + (pos - cursor.toNat) = pos := by omega
    rw [this]
    exact (startsWithSeq_iff_take _ _).mpr hocc
  obtain ⟨k, hk, hik, hkp, hsk⟩ :=
    idxSearch_finds (text.drop cursor.toNat) s cursor.toNat pos hct hsw
  refine ⟨k, ?_, ?_, hkp, ?_⟩
  · unfold indexOfFrom
    rw [hstart]
    simp only [hk]
  · calc cursor = (cursor.toNat : Int) := (Int.toNat_of_nonneg hc0).symm
      _ ≤ (k : Int) := by exact_mod_cast hik
  · rw [List.drop_drop] at hsk
    have : cursor.toNat + (k - cursor.toNat) = k := by omega
    rw [this] at hsk
    exact (startsWithSeq_iff_take _ _).mp hsk

theorem occursInOrder_mono {text : List Char} {c c' : Int} {ss : List (List Char)}
    (h : OccursInOrder text c ss) (hc : c' ≤ c) : OccursInOrder text c' ss := by
  cases h with
  | nil => exact OccursInOrder.nil c'
  | cons c pos s rest hle hocc htail =>
      exact OccursInOrder.cons c' pos s rest (le_trans hc hle) hocc htail

theorem split_occurs_aux (text : List Char) : ∀ (n : Nat) (l : List Char), l.length ≤ n →
    (∀ acc done : List Char, text = done ++ acc.reverse ++ l →
      OccursInOrder text (done.length : Int) (splitPieces l acc)) ∧
    (∀ done : List Char, text = done ++ l →
      OccursInOrder text (done.length : Int) (splitSkipWs l)) := by
  intro n
  induction n with
  | zero =>
      intro l hl
      have hnil : l = [] := List.eq_nil_of_length_eq_zero (Nat.le_zero.mp hl)
      subst hnil
      constructor
      · intro acc done h
        simp only [splitPieces]
        refine OccursInOrder.cons _ done.length _ _ (le_refl _) ?_ (OccursInOrder.nil _)
        unfold occursAt
        rw [h, List.append_nil, List.drop_left, List.take_length]
      · intro done h
        simp only [splitSkipWs]
        refine OccursInOrder.cons _ done.length _ _ (le_refl _) ?_ (OccursInOrder.nil _)
        unfold occursAt
        simp
  | succ n ih =>
      intro l hl
      cases l with
      | nil =>
          constructor
          · intro acc done h
            simp only [splitPieces]
            refine OccursInOrder.cons _ done.length _ _ (le_refl _) ?_ (OccursInOrder.nil _)
            unfold occursAt
            rw [h, List.append_nil, List.drop_left, List.take_length]
          · intro done h
            simp only [splitSkipWs]
            refine OccursInOrder.cons _ done.length _ _ (le_refl _) ?_ (OccursInOrder.nil _)
            unfold occursAt
            simp
      | cons c rest =>
          have hrest : rest.length ≤ n := by
            simp at hl
            omega
          constructor
          · intro acc done h
            simp only [splitPieces]
            split
            · refine OccursInOrder.cons _ done.length _ _ (le_refl _) ?_ ?_
              · unfold occursAt
                rw [h, List.append_assoc, List.drop_left, List.take_left]
              · have hdone' : text = (done ++ acc.reverse ++ [c]) ++ rest := by
                  rw [h]
                  simp [List.append_assoc]
                have htail := (ih rest hrest).2 (done ++ acc.reverse ++ [c]) hdone'
                refine occursInOrder_mono htail ?_
                simp
            · have h' : text = done ++ (c :: acc).reverse ++ rest := by
                rw [h]
                simp [List.append_assoc]
              exact (ih rest hrest).1 (c :: acc) done h'
          · intro done h
            simp only [splitSkipWs]
            split
            · have hdone' : text = (done ++ [c]) ++ rest := by
                rw [h]
                simp
              have htail := (ih rest hrest).2 (done ++ [c]) hdone'
              refine occursInOrder_mono htail ?_
              simp
            · have h' : text = done ++ ([c].reverse : List Char) ++ rest := by
                rw [h]
                simp
              exact (ih rest hrest).1 [c] done h'

theorem trimList_decomp (s : List Char) :
    ∃ a b : List Char, s = a ++ trimList s ++ b := by
  refine ⟨s.takeWhile isJsWhitespace,
    ((s.dropWhile isJsWhitespace).reverse.takeWhile isJsWhitespace).reverse, ?_⟩
  unfold trimList
  conv_lhs => rw [← List.takeWhile_append_dropWhile isJsWhitespace s]
  rw [List.append_assoc]
  congr 1
  conv_lhs => rw [← List.reverse_reverse (s.dropWhile isJsWhitespace),
    ← List.takeWhile_append_dropWhile isJsWhitespace (s.dropWhile isJsWhitespace).reverse]
  rw [List.reverse_append]

theorem occursAt_infix {text : List Char} {pos : Nat} {a m b : List Char}
    (h : occursAt text pos (a ++ m ++ b)) : occursAt text (pos + a.length) m := by
  unfold occursAt at h ⊢
  have hT : text.drop pos = (a ++ m ++ b) ++ (text.drop pos).drop (a ++ m ++ b).length := by
    conv_lhs => rw [← List.take_append_drop (a ++ m ++ b).length (text.drop pos)]
    rw [h]
  have hdd : text.drop (pos + a.length) = (text.drop pos).drop a.length := by
    rw [List.drop_drop]
  rw [hdd, hT]
  have hsplit : (a ++ m ++ b) ++ (text.drop pos).drop (a ++ m ++ b).length =
      a ++ (m ++ (b ++ (text.drop pos).drop (a ++ m ++ b).length)) := by
    simp [List.append_assoc]
  rw [hsplit, List.drop_left]
  rw [List.take_left]

theorem occursInOrder_trim {text : List Char} {c : Int} {ss : List (List Char)}
    (h : OccursInOrder text c ss) : OccursInOrder text c (ss.map trimList) := by
  induction h with
  | nil c => exact OccursInOrder.nil c
  | cons c pos s rest hle hocc htail ih =>
      obtain ⟨a, b, hs⟩ := trimList_decomp s
      rw [hs] at hocc
      have hocc' := occursAt_infix hocc
      rw [List.map_cons]
      refine OccursInOrder.cons c (pos + a.length) (trimList s) _ ?_ hocc' ?_
      · calc c ≤ (pos : Int) := hle
          _ ≤ ((pos + a.length : Nat) : Int) := by push_cast; omega
      · have hlen : s.length = a.length + (trimList s).length + b.length := by
          have h1 := congrArg List.length hs
          simp only [List.length_append] at h1
          omega
        refine occursInOrder_mono ih ?_
        rw [hlen]
        push_cast
        omega

theorem occursInOrder_filter {text : List Char} {c : Int} {ss : List (List Char)}
    (pred : List Char → Bool) (h : OccursInOrder text c ss) :
    OccursInOrder text c (ss.filter pred) := by
  induction h with
  | nil c => exact OccursInOrder.nil c
  | cons c pos s rest hle hocc htail ih =>
      by_cases hp : pred s = true
      · rw [List.filter_cons_of_pos hp]
        exact OccursInOrder.cons c pos s _ hle hocc ih
      · rw [List.filter_cons_of_neg (by simpa using hp)]
        refine occursInOrder_mono ih ?_
        calc c ≤ (pos : Int) := hle
          _ ≤ (pos : Int) + s.length := by omega

theorem tagClaims_spans (response : List Char) (ids : Nat → String) :
    ∀ (ss : List (List Char)) (cursor : Int) (n : Nat),
      0 ≤ cursor → OccursInOrder response cursor ss → (∀ s ∈ ss, s ≠ []) →
      ∀ claim ∈ tagClaims response ids ss cursor n, ∀ sp ∈ claim.span_refs,
        0 ≤ sp.1 ∧ sp.1 < sp.2 ∧ sp.2 ≤ (response.length : Int) := by
  intro ss
  induction ss with
  | nil =>
      intro cursor n _ _ _ claim hclaim
      simp [tagClaims] at hclaim
  | cons s rest ih =>
      intro cursor n h0 hocc hne claim hclaim sp hsp
      cases hocc with
      | cons _ pos _ _ hle hoccp htail =>
          have hsne : s ≠ [] := hne s (List.mem_cons_self s rest)
          obtain ⟨k, hk, hck, hkp, hocck⟩ := indexOfFrom_spec h0 hle hoccp hsne
          have hkb := occursAt_bound hocck hsne
          have hkl : 0 < s.length := List.length_pos.mpr hsne
          rw [tagClaims, hk] at hclaim
          rcases List.mem_cons.mp hclaim with hhd | htl
          · subst hhd
            simp only at hsp
            rcases List.mem_singleton.mp hsp with rfl
            refine ⟨by omega, by omega, by omega⟩
          · have htail' : OccursInOrder response ((k : Int) + (s.length : Int)) rest := by
              refine occursInOrder_mono htail ?_
              omega
            have h0' : (0 : Int) ≤ (k : Int) + (s.length : Int) := by omega
            exact ih ((k : Int) + (s.length : Int)) (n + 1) h0' htail'
              (fun t ht => hne t (List.mem_cons_of_mem s ht)) claim htl sp hsp

/-- C7: every span recorded by the tagger satisfies
`0 ≤ start < end ≤ length of the input`; in particular the monotonic
`indexOf` search never fails, so `start` is never `-1`. -/
theorem tagResponse_span_invariant (ids : Nat → String) (taggedAt : String)
    (response : List Char) :
    ∀ claim ∈ (tagResponse ids taggedAt response).claims, ∀ sp ∈ claim.span_refs,
      0 ≤ sp.1 ∧ sp.1 < sp.2 ∧ sp.2 ≤ (response.length : Int) := by
  intro claim hclaim sp hsp
  have hsplit : OccursInOrder response ((([] : List Char).length : Int))
      (splitPieces response []) := by
    exact (split_occurs_aux response response.length response (le_refl _)).1 [] []
      (by simp)
  have htrim := occursInOrder_trim hsplit
  have hfilt := occursInOrder_filter (fun s => decide (0 < s.length)) htrim
  have hne : ∀ s ∈ (((splitPieces response []).map trimList).filter
      (fun s => decide (0 < s.length))), s ≠ [] := by
    intro s hsmem
    have := (List.mem_filter.mp hsmem).2
    simp at this
    exact List.ne_nil_of_length_pos this
  simp only [tagResponse] at hclaim
  exact tagClaims_spans response ids _ 0 0 (le_refl 0) (by simpa using hfilt) hne
    claim hclaim sp hsp

/-- Witness for C7: applied to the concrete response `"Hi. Yo."`, whose first
tagged claim records the span `(0, 3)`. -/
theorem tagResponse_span_invariant_witness :
    (0 : Int) ≤ 0 ∧ (0 : Int) < 3 ∧ (3 : Int) ≤ (("Hi. Yo.".data).length : Int) := by
  have hcl : (tagResponse (fun _ => "id") "t" "Hi. Yo.".data).claims =
      [{ id := "id", type := "ASSERTION", text := "Hi.", span_refs := [((0 : Int), (3 : Int))] },
       { id := "id", type := "ASSERTION", text := "Yo.", span_refs := [((4 : Int), (7 : Int))] }] := rfl
  have h := tagResponse_span_invariant (fun _ => "id") "t" "Hi. Yo.".data
    { id := "id", type := "ASSERTION", text := "Hi.", span_refs := [((0 : Int), (3 : Int))] }
    (by rw [hcl]; exact List.mem_cons_self _ _)
    ((0 : Int), (3 : Int)) (List.mem_singleton.mpr rfl)
  exact h

end OrchSpec
